import Mathlib

/-!
Verification of skydns2 (service-discovery DNS server) against its
natural-language specification.  The Go sources are shallowly embedded:
pure helpers become Lean functions, machine integers become Nat with
explicit bounds, byte slices become List Nat, fallible calls return
Except or a value/error pair, and the network (etcd backend, upstream
exchanges) is passed in as an explicit function parameter.
-/

namespace SkyDNS

/-! ## Generic byte and string helpers -/

/-- packUint16 from cache.go: the two big-endian bytes of a 16-bit value. -/
def packUint16 (i : Nat) : List Nat := [i / 256 % 256, i % 256]

/-- packUint32 from cache.go: the four big-endian bytes of a 32-bit value. -/
def packUint32 (i : Nat) : List Nat :=
  [i / 16777216 % 256, i / 65536 % 256, i / 256 % 256, i % 256]

/-- The SHA-1 digest of the empty string.  The cache key functions build a key
as string(h.Sum(i)) with h a fresh sha1.New() into which nothing was written,
and Go hash.Sum appends the digest of the data written so far to its argument:
so every key is the serialised tuple i followed by this 20-byte constant. -/
def sha1EmptyDigest : List Nat :=
  [218, 57, 163, 238, 94, 107, 75, 13, 50, 85, 191, 239, 149, 96, 24, 144,
   175, 216, 7, 9]

/-- Bytes of a Go string ([]byte(s)); names handled here are ASCII, where
UTF-8 bytes coincide with the code points. -/
def strBytes (s : String) : List Nat := s.data.map Char.toNat

/-- strings.ToLower, restricted to ASCII as DNS names are. -/
def strToLower (s : String) : String := String.mk (s.data.map Char.toLower)

/-- Suffix test on strings (strings.HasSuffix). -/
def strEndsWith (s suffix : String) : Bool :=
  suffix.data.reverse == s.data.reverse.take suffix.data.length

/-- dns.Fqdn: append a trailing dot when absent (label escapes are not used by
this code base and are not modelled). -/
def fqdn (s : String) : String := if strEndsWith s "." then s else s ++ "."

/-- dns.IsSubDomain from the miekg/dns library, modelled as a case-insensitive
suffix test: child is a subdomain of parent. -/
def isSubDomain (parent child : String) : Bool :=
  strEndsWith (strToLower child) (strToLower parent)

/-! ## TTL handling -/

/-- TTL-rewriting step of the deferred envelope finaliser in
server/server.go ServeDNS (lines 265-276): when the answer section holds more
than one record, every answer TTL is rewritten to the running minimum of the
answer TTLs, a minimum that is seeded with the configured default TTL
s.config.Ttl.  The answer section is abstracted to its list of TTLs. -/
def finalizeAnswerTtls (configTtl : Nat) (answer : List Nat) : List Nat :=
  if 1 < answer.length then
    let minttl := answer.foldl (fun acc t => if t < acc then t else acc) configTtl
    answer.map (fun _ => minttl)
  else answer

/-- calculateTtl from the query pipeline (src/unnamed/part_003 lines 692-708):
combine the etcd node TTL, the service record TTL and the configured default
TTL into the TTL of the emitted records. -/
def calculateTtl (etcdTtl servTtl configTtl : Nat) : Nat :=
  if etcdTtl = 0 ∧ servTtl = 0 then configTtl
  else if etcdTtl = 0 then servTtl
  else if servTtl = 0 then etcdTtl
  else if etcdTtl < servTtl then etcdTtl
  else servTtl

/-- The TTL rule as the spec words it: the minimum of the store node TTL, the
service record TTL and the configured default TTL, where a zero value is
excluded (falls through) from the minimum.  This definition follows the
words of the spec and is compared against calculateTtl, the definition taken
from the source. -/
def ttlSpecMin (etcdTtl servTtl configTtl : Nat) : Nat :=
  match ([etcdTtl, servTtl, configTtl].filter (fun t => t != 0)) with
  | [] => 0
  | t :: ts => ts.foldl Nat.min t

/-! ## Forwarding (ServeDNSForward, src/unnamed/part_003 lines 292-334) -/

/-- Outcome of the forwarding handler: a forwarded reply or a SERVFAIL
response. -/
inductive FwdOutcome where
  | reply (r : Nat)
  | servFail
deriving DecidableEq

/-- The retry loop of ServeDNSForward.  The source counts a variable try
upward from 0 and, after a failed exchange, retries at the next upstream
index while try < N; here the recursion runs on remaining = N - try, which
the loop condition keeps nonnegative, so remaining = 0 means try = N (the
final attempt, after which the handler gives up).  The upstream exchange
c.Exchange(req, nameservers[nsid]) is abstracted as the function parameter
exchange from upstream index to an optional reply.  The result collects the
list of attempted upstream indices in order, paired with the outcome. -/
def forwardLoop (exchange : Nat → Option Nat) (n : Nat) :
    Nat → Nat → List Nat × FwdOutcome
  | 0, nsid =>
    match exchange nsid with
    | some r => ([nsid], FwdOutcome.reply r)
    | none => ([nsid], FwdOutcome.servFail)
  | remaining + 1, nsid =>
    match exchange nsid with
    | some r => ([nsid], FwdOutcome.reply r)
    | none =>
      let rest := forwardLoop exchange n remaining ((nsid + 1) % n)
      (nsid :: rest.1, rest.2)

/-- ServeDNSForward: with no upstreams configured answer SERVFAIL at once;
otherwise start at upstream index reqId mod N and run the retry loop with
try = 0, that is remaining = N. -/
def ServeDNSForward (exchange : Nat → Option Nat) (n : Nat) (reqId : Nat) :
    List Nat × FwdOutcome :=
  if n = 0 then ([], FwdOutcome.servFail)
  else forwardLoop exchange n n (reqId % n)

/-! ## Data model of the query pipeline (server/server.go) -/

/-- Outcome of net.ParseIP on a service host followed by the To4 test: an
IPv4 literal, an IPv6 literal, or not an IP at all (a target name).  The
payload of the ip cases is an abstract numeric address value. -/
inductive Host where
  | ip4 (addr : Nat)
  | ip6 (addr : Nat)
  | name (target : String)
deriving DecidableEq

/-- A service record as read from the store (msg.Service): endpoint host,
port, SRV priority and weight, TTL, TXT payload and the store key the record
was read from. -/
structure Service where
  host : Host
  port : Nat := 0
  priority : Nat := 0
  weight : Nat := 0
  ttl : Nat := 0
  text : String := ""
  key : String := ""
deriving DecidableEq

/-- Query type; only the branches the embedded handler code inspects are
distinguished. -/
inductive Qtype where
  | A
  | AAAA
  | SRV
  | ANY
  | CNAME
  | TXT
deriving DecidableEq

/-- The DNS records synthesised by AddressRecords. -/
inductive RR where
  | cname (name target : String)
  | a (name : String) (addr : Nat)
  | aaaa (name : String) (addr : Nat)
deriving DecidableEq

/-- Errors of the backend Records call: etcd error code 100 (key not found)
versus any other backend error. -/
inductive BErr where
  | notFound
  | other
deriving DecidableEq

/-- Errors returned by AddressRecords.  outOfFuel is an artefact of the fuel
embedding, not of the source; the termination theorem for claim C2 shows it
never surfaces when the fuel is at least 9. -/
inductive RErr where
  | backend (e : BErr)
  | cnameLimit
  | cnameLoop
  | incompleteChain
  | outOfFuel
deriving DecidableEq

/-- The backend interface restricted to what AddressRecords consumes:
backend.Records(name, exact=false). -/
def Backend : Type := String → Except BErr (List Service)

/-- isDuplicateCNAME from server/server.go lines 650-659: is there already a
CNAME among records with the given target. -/
def isDuplicateCNAME (target : String) (records : List RR) : Bool :=
  records.any fun r =>
    match r with
    | RR.cname _ t => t == target
    | _ => false

/-- The services loop of AddressRecords (server/server.go lines 464-496).
recur stands for the recursive AddressRecords call on the CNAME target; acc
accumulates the records emitted so far (the Go records slice).  The Go
function returns a pair (records, err); errors carry the partial records
exactly as the source returns them: nil for the limit and loop errors, the
records emitted so far for the incomplete-chain error.  A result of the
recursive call that is the fuel artefact outOfFuel is propagated as such
rather than folded into incompleteChain, so that fuel exhaustion stays
observable. -/
def addressLoop (qtype : Qtype)
    (recur : String → String → List RR → List RR × Option RErr)
    (qname : String) (prev : List RR) :
    List Service → List RR → List RR × Option RErr
  | [], acc => (acc, none)
  | serv :: rest, acc =>
    match serv.host with
    | Host.name h =>
      let target := fqdn h
      let newRecord := RR.cname qname target
      if 7 < prev.length then ([], some RErr.cnameLimit)
      else if isDuplicateCNAME target prev then ([], some RErr.cnameLoop)
      else
        match recur target (strToLower target) (prev ++ [newRecord]) with
        | (_, some RErr.outOfFuel) => (acc ++ [newRecord], some RErr.outOfFuel)
        | (_, some _) => (acc ++ [newRecord], some RErr.incompleteChain)
        | (next, none) => addressLoop qtype recur qname prev rest (acc ++ [newRecord] ++ next)
    | Host.ip4 addr =>
      addressLoop qtype recur qname prev rest
        (if qtype = Qtype.A then acc ++ [RR.a qname addr] else acc)
    | Host.ip6 addr =>
      addressLoop qtype recur qname prev rest
        (if qtype = Qtype.AAAA then acc ++ [RR.aaaa qname addr] else acc)

/-- AddressRecords from server/server.go lines 459-501, with an explicit fuel
argument bounding the CNAME recursion depth (the source recursion is bounded
by the previousRecords length guard; the termination theorem below shows
fuel 9 is never exhausted from an empty previousRecords).  The round-robin
shuffle s.RoundRobin, an in-place permutation driven by dns.Id(), is
abstracted as the function parameter shuffle applied on the success path when
the round-robin configuration flag is set. -/
def AddressRecords (backend : Backend) (shuffle : List RR → List RR)
    (roundRobin : Bool) (qtype : Qtype) :
    Nat → String → String → List RR → List RR × Option RErr
  | 0, _, _, _ => ([], some RErr.outOfFuel)
  | fuel + 1, qname, name, prev =>
    match backend name with
    | Except.error e => ([], some (RErr.backend e))
    | Except.ok services =>
      match addressLoop qtype
          (fun t tl p => AddressRecords backend shuffle roundRobin qtype fuel t tl p)
          qname prev services [] with
      | (recs, none) => ((if roundRobin then shuffle recs else recs), none)
      | r => r

/-- The fuel the handler model passes to AddressRecords; the C2 theorem shows
it is never exhausted when starting from an empty previousRecords list. -/
def addressFuel : Nat := 9

/-- Response codes the embedded handler slice can produce. -/
inductive Rcode where
  | noError
  | nameError
  | servFail
deriving DecidableEq

/-- The reply assembled by the handler: response code, answer section, and
whether the authority section was loaded with the SOA record (as NameError,
NoDataError and the final NODATA branch do). -/
structure DnsReply where
  rcode : Rcode
  answer : List RR
  soaInAuthority : Bool
deriving DecidableEq

/-- NameError (server/server.go lines 661-666): NXDOMAIN with the SOA in the
authority section; the answer section is left empty. -/
def nameErrorReply : DnsReply :=
  { rcode := Rcode.nameError, answer := [], soaInAuthority := true }

/-- NoDataError (server/server.go lines 668-673): rcode success with the SOA
in the authority section and an empty answer section. -/
def noDataReply : DnsReply :=
  { rcode := Rcode.noError, answer := [], soaInAuthority := true }

/-- End of the handler for the fall-through paths: append the records to the
answer section, then the final NODATA check of ServeDNS (lines 452-456) loads
the SOA into the authority section when the answer stayed empty. -/
def finishReply (records : List RR) : DnsReply :=
  if records.length = 0 then { rcode := Rcode.noError, answer := [], soaInAuthority := true }
  else { rcode := Rcode.noError, answer := records, soaInAuthority := false }

/-- The target scan of the incomplete-CNAME-chain branch (server/server.go
lines 384-392): the first CNAME among records whose target lies outside the
authoritative domain, or the empty string when there is none. -/
def firstExternalCnameTarget (domain : String) : List RR → String
  | [] => ""
  | RR.cname _ t :: rest =>
    if isSubDomain domain t then firstExternalCnameTarget domain rest else t
  | _ :: rest => firstExternalCnameTarget domain rest

/-- The A/AAAA arm of ServeDNS (server/server.go lines 368-407) together with
the final NODATA check (lines 452-456), for an in-domain, non-apex qname.
The external lookup s.Lookup through the forwarder is abstracted as the
function parameter lookup returning the answer section of a successful
upstream reply, or none on failure. -/
def serveAddressQuery (backend : Backend) (shuffle : List RR → List RR)
    (roundRobin : Bool) (lookup : String → Qtype → Option (List RR))
    (domain : String) (qtype : Qtype) (qname : String) : DnsReply :=
  let name := strToLower qname
  match AddressRecords backend shuffle roundRobin qtype addressFuel qname name [] with
  | (_, some (RErr.backend BErr.notFound)) => nameErrorReply
  | (records, some RErr.incompleteChain) =>
    if records.length = 0 then nameErrorReply
    else
      let target := firstExternalCnameTarget domain records
      if target = "" then noDataReply
      else
        match lookup target qtype with
        | none => noDataReply
        | some ans => finishReply (records ++ ans)
  | (records, some (RErr.backend BErr.other)) => finishReply records
  | (records, some RErr.cnameLimit) => finishReply records
  | (records, some RErr.cnameLoop) => finishReply records
  | (records, some RErr.outOfFuel) => finishReply records
  | (records, none) => finishReply records

/-- The backend of the CNAME-loop test fixture (server_test.go services
3.cname.skydns.test. and 4.cname.skydns.test., a two-cycle of CNAMEs). -/
def cycBackend : Backend := fun name =>
  if name = "3.cname.skydns.test." then
    Except.ok [{ host := Host.name "4.cname.skydns.test" }]
  else if name = "4.cname.skydns.test." then
    Except.ok [{ host := Host.name "3.cname.skydns.test" }]
  else Except.error BErr.notFound

/-! ## SRV weight computation (server/server.go SRVRecords, lines 530-591) -/

/-- The weight a service contributes: its weight field, defaulting to 100
when the field is zero (first pass of SRVRecords, lines 537-548). -/
def effWeight (serv : Service) : Nat := if serv.weight = 0 then 100 else serv.weight

/-- The per-priority total weight map w built by the first pass of
SRVRecords; the absent-key initialisation w[p] = weight followed by
w[p] += weight amounts to summing from zero. -/
def weightTotals (services : List Service) : Nat → Nat :=
  services.foldl
    (fun w serv =>
      fun p => if p = serv.priority then w p + effWeight serv else w p)
    (fun _ => 0)

/-- Round the nonnegative fraction p / q to the nearest integer with ties to
even — the rounding IEEE 754 binary64 applies to the scaled significand. -/
def roundHalfEven (p q : Nat) : Nat :=
  let n := p / q
  let r := p % q
  if 2 * r < q then n
  else if q < 2 * r then n + 1
  else if n % 2 = 0 then n else n + 1

/-- Binary digit count, written with an explicit structural fuel (the number
itself suffices) so that both proofs and concrete kernel evaluation go
through; bitlen n is the unique k with 2 ^ (k - 1) <= n < 2 ^ k for positive
n, and 0 for n = 0. -/
def bitlenAux : Nat → Nat → Nat
  | 0, _ => 0
  | fuel + 1, n => if n = 0 then 0 else bitlenAux fuel (n / 2) + 1

/-- Binary digit count of a natural number. -/
def bitlen (n : Nat) : Nat := bitlenAux n n

/-- The scale s = 52 - floor(log2(p / q)) at which binary64 rounds the
positive fraction p / q: the rounded significand round(p * 2 ^ s / q) then
lies in [2 ^ 52, 2 ^ 53].  The bit-length difference locates floor(log2)
within one, and the comparison test settles it.  The first branch (values of
at least 2 ^ 53, scale 0) and a zero q are degenerate inputs that the weight
computation below never produces — its fractions lie strictly between 0 and
2 ^ 7. -/
def floatScale (p q : Nat) : Nat :=
  if bitlen q + 52 < bitlen p then 0
  else
    let s0 := 52 + bitlen q - bitlen p
    if q * 2 ^ 52 ≤ p * 2 ^ s0 then s0 else s0 + 1

/-- Round the fraction p / q to IEEE 754 binary64 precision (53 significant
bits, round to nearest, ties to even), returned as the dyadic pair (m, s)
whose value is m / 2 ^ s.  Overflow and subnormals are not modelled: the
inputs this code base rounds lie between 2 ^ -63 and 2 ^ 7, deep inside the
normal range, where this is exactly the binary64 rounding. -/
def fl53pair (p q : Nat) : Nat × Nat :=
  let s := floatScale p q
  (roundHalfEven (p * 2 ^ s) q, s)

/-- The emitted weight of one service in the second SRVRecords pass
(server/server.go lines 551-557): w1 := 100.0 / float64(W); w1 *= float64(w);
uint16(math.Floor(w1)).  Both float64 operations round to binary64: the
division as fl53pair 100 W and the product as fl53pair of the resulting
dyadic numerator times w.  math.Floor then truncates, and the uint16
conversion is the identity because the result is at most about 101 when the
service weight w is a summand of the class total W. -/
def srvWeightFloat (w W : Nat) : Nat :=
  let a := fl53pair 100 W
  let b := fl53pair (a.1 * w) (2 ^ a.2)
  b.1 / 2 ^ b.2

/-- The (priority, weight) pairs of the SRV records emitted by the second
pass of SRVRecords: each of the three host cases appends exactly one SRV
record carrying weight uint16(math.Floor(100.0 / float64(w[p]) * float64(w)))
with w the service weight scaled to 100 when zero, modelled by
srvWeightFloat with exact binary64 rounding. -/
def srvEmittedWeights (services : List Service) : List (Nat × Nat) :=
  services.map fun serv =>
    (serv.priority, srvWeightFloat (effWeight serv) (weightTotals services serv.priority))

/-! ## Response cache key -/

/-- Modelled from the spec: the two-argument QuestionKey(question, dnssec) of
the cache package that server/server.go line 203 calls is not among these
sources (the copies under src are one-argument predecessors that predate the
dnssec argument of the call site).  Spec section 4.4 defines the key as
hash(qname, qtype, do-bit) concatenated; the do-bit is serialised as one
byte.  The hash follows the cache-key idiom used throughout this repository,
string((sha1.New()).Sum(i)), which appends the constant 20-byte digest of the
empty string to the serialised tuple i (see sha1EmptyDigest). -/
def QuestionKey (qname : List Nat) (qtype : Nat) (dnssec : Bool) : List Nat :=
  qname ++ packUint16 qtype ++ [if dnssec then 1 else 0] ++ sha1EmptyDigest

/-! ## Signature cache key (src/unnamed/part_004 lines 151-178) -/

/-- The record sets passed to the signature cache key function, with the
fields its serialisation switch reads. -/
inductive SigRR where
  | soa (name : String) (serial : Nat)
  | srv (name : String) (priority weight port : Nat) (target : String)
  | a (name : String) (addr : List Nat)
  | aaaa (name : String) (addr : List Nat)
  | nsec3 (name : String) (nextDomain : String)
  | dnskey (name : String)
  | ns (name : String) (target : String)
  | txt (name : String) (text : String)
deriving DecidableEq

/-- Owner name of a record (Header().Name). -/
def sigRRName : SigRR → String
  | SigRR.soa n _ => n
  | SigRR.srv n _ _ _ _ => n
  | SigRR.a n _ => n
  | SigRR.aaaa n _ => n
  | SigRR.nsec3 n _ => n
  | SigRR.dnskey n => n
  | SigRR.ns n _ => n
  | SigRR.txt n _ => n

/-- Record type code of a record (Header().Rrtype), with the type codes of
the miekg/dns library. -/
def sigRRType : SigRR → Nat
  | SigRR.soa _ _ => 6
  | SigRR.srv _ _ _ _ _ => 33
  | SigRR.a _ _ => 1
  | SigRR.aaaa _ _ => 28
  | SigRR.nsec3 _ _ => 50
  | SigRR.dnskey _ => 48
  | SigRR.ns _ _ => 2
  | SigRR.txt _ _ => 16

/-- The per-record serialisation switch of Key: note that for SRV records the
source appends Priority, then Weight twice, then Target — the Port field is
never serialised — and that DNSKEY, NS and TXT records contribute nothing. -/
def serializeSigRR : SigRR → List Nat
  | SigRR.soa _ serial => packUint32 serial
  | SigRR.srv _ priority weight _ target =>
    packUint16 priority ++ packUint16 weight ++ packUint16 weight ++ strBytes target
  | SigRR.a _ addr => addr
  | SigRR.aaaa _ addr => addr
  | SigRR.nsec3 _ nextDomain => strBytes nextDomain
  | SigRR.dnskey _ => []
  | SigRR.ns _ _ => []
  | SigRR.txt _ _ => []

/-- Key from the cache package: the owner name and type of the first record
followed by the serialisation of every member, closed with the constant
suffix that h.Sum appends.  The source indexes rrs[0], so an empty record
set would panic in Go; callers always pass a non-empty set and the empty
case here is given a dummy value. -/
def Key : List SigRR → List Nat
  | [] => sha1EmptyDigest
  | r0 :: rest =>
    ((r0 :: rest).foldl (fun i r => i ++ serializeSigRR r)
      (strBytes (sigRRName r0) ++ packUint16 (sigRRType r0))) ++ sha1EmptyDigest

/-! ## Byte arithmetic and base32hex (src/nsec3.go) -/

/-- Value of a little-endian digit list in the given base. -/
def digitsVal (base : Nat) : List Nat → Nat
  | [] => 0
  | d :: rest => d + base * digitsVal base rest

/-- The count least-significant digits of a value in the given base,
little-endian. -/
def natDigits (base : Nat) : Nat → Nat → List Nat
  | 0, _ => []
  | count + 1, v => v % base :: natDigits base count (v / base)

/-- Big-endian value of a byte slice. -/
def valBE (b : List Nat) : Nat := digitsVal 256 b.reverse

/-- The count-byte big-endian representation of a value. -/
def toBytesBE (count v : Nat) : List Nat := (natDigits 256 count v).reverse

/-- The increment loop of byteArith (nsec3.go lines 138-146) on the reversed
(least-significant-first) byte list: a 255 byte becomes 0 and the carry
continues; otherwise the byte is incremented and the loop returns.  The
boolean records whether the loop returned; when it ran off the front
(every byte was 255) the Go control flow falls through into the decrement
loop. -/
def incBytesRev : List Nat → List Nat × Bool
  | [] => ([], false)
  | b :: rest =>
    if b = 255 then
      let r := incBytesRev rest
      (0 :: r.1, r.2)
    else ((b + 1) :: rest, true)

/-- The decrement loop of byteArith (nsec3.go lines 147-154) on the reversed
byte list: a 0 byte becomes 255 and the borrow continues; otherwise the byte
is decremented and the loop returns. -/
def decBytesRev : List Nat → List Nat
  | [] => []
  | b :: rest => if b = 0 then 255 :: decBytesRev rest else (b - 1) :: rest

/-- byteArith from nsec3.go lines 136-155: add one (x true) or subtract one
(x false) to the big-endian buffer, mirroring the in-place loops of the
source including the fall-through of a fully-carried increment loop into the
decrement loop. -/
def byteArith (b : List Nat) (x : Bool) : List Nat :=
  if x then
    match incBytesRev b.reverse with
    | (r, true) => r.reverse
    | (r, false) => (decBytesRev r).reverse
  else (decBytesRev b.reverse).reverse

/-- Character of a base32hex digit (alphabet 0-9 then A-V), as a code
point. -/
def base32Char (d : Nat) : Nat := if d < 10 then 48 + d else 55 + d

/-- Digit value of a base32hex character code (inverse of base32Char on the
canonical upper-case alphabet, the only characters this code base decodes). -/
def base32Val (c : Nat) : Nat := if c ≤ 57 then c - 48 else c - 55

/-- unpackBase32 from nsec3.go lines 49-53: base32hex encoding of a byte
slice, as a list of character codes.  A 20-byte SHA-1 digest (the only shape
this code base encodes) packs into exactly 8 * 20 / 5 = 32 digits, so the
RFC 4648 base32hex encoding coincides with the big-endian base-32 digit
expansion of the value. -/
def unpackBase32 (b : List Nat) : List Nat :=
  ((natDigits 32 (8 * b.length / 5) (valBE b)).reverse).map base32Char

/-- packBase32 from nsec3.go lines 41-47: base32hex decoding of a character
list back into 5 * 32 / 8 = 20 bytes for the 32-character hash strings this
code base decodes. -/
def packBase32 (s : List Nat) : List Nat :=
  toBytesBE (5 * s.length / 8) (digitsVal 32 ((s.map base32Val).reverse))

/-- ASCII lower-casing of one character code (strings.ToLower on the base32
alphabet). -/
def toLowerChar (c : Nat) : Nat := if 65 ≤ c ∧ c ≤ 90 then c + 32 else c

/-- An NSEC3 record reduced to the fields claim C9 speaks about; names are
lists of character codes. -/
structure NSEC3 where
  ownerName : List Nat
  nextDomain : List Nat
  ttl : Nat
deriving DecidableEq

/-- NewNSEC3NameError from nsec3.go lines 56-75.  The SHA-1 NSEC3 hash
covername = dns.HashName(qname, SHA1, 0, "") is the abstraction point: it is
passed in as the covername argument (the base32hex string of the 20-byte
digest).  The source then decodes it, subtracts one in place for the owner
label, re-encodes lower-cased and appends the domain, then adds one twice in
place and re-encodes for NextDomain. -/
def NewNSEC3NameError (domain : List Nat) (minTtl : Nat) (covername : List Nat) : NSEC3 :=
  let buf := packBase32 covername
  let buf1 := byteArith buf false
  let owner := (unpackBase32 buf1).map toLowerChar ++ [46] ++ domain
  let buf2 := byteArith buf1 true
  let buf3 := byteArith buf2 true
  { ownerName := owner, nextDomain := unpackBase32 buf3, ttl := minTtl }

/-- A three-service fixture mirroring the subdomain test: three services of
priority 10 and weight 0, whose emitted weights are 33 each. -/
def demoServices : List Service :=
  [{ host := Host.ip4 1, priority := 10 }, { host := Host.ip4 2, priority := 10 },
   { host := Host.ip4 3, priority := 10 }]

/-! ## Helper lemmas -/

/-- The running minimum computed by the TTL finaliser: it is at most the seed,
at most every list element, and is either the seed or an element. -/
theorem foldlTtlMin_spec (l : List Nat) : ∀ cfg : Nat,
    (l.foldl (fun acc t => if t < acc then t else acc) cfg ≤ cfg)
    ∧ (∀ t ∈ l, l.foldl (fun acc t => if t < acc then t else acc) cfg ≤ t)
    ∧ (l.foldl (fun acc t => if t < acc then t else acc) cfg = cfg
        ∨ l.foldl (fun acc t => if t < acc then t else acc) cfg ∈ l) := by
  induction l with
  | nil => intro cfg; exact ⟨le_refl _, by simp, Or.inl rfl⟩
  | cons a l ih =>
    intro cfg
    refine ⟨?_, ?_, ?_⟩
    · by_cases hc : a < cfg
      · simp only [List.foldl_cons, if_pos hc]
        exact le_trans (ih a).1 (by omega)
      · simp only [List.foldl_cons, if_neg hc]
        exact (ih cfg).1
    · intro t ht
      by_cases hc : a < cfg
      · simp only [List.foldl_cons, if_pos hc]
        rcases List.mem_cons.mp ht with h1 | h1
        · rw [h1]; exact (ih a).1
        · exact (ih a).2.1 t h1
      · simp only [List.foldl_cons, if_neg hc]
        rcases List.mem_cons.mp ht with h1 | h1
        · rw [h1]; exact le_trans (ih cfg).1 (by omega)
        · exact (ih cfg).2.1 t h1
    · by_cases hc : a < cfg
      · simp only [List.foldl_cons, if_pos hc]
        rcases (ih a).2.2 with h1 | h1
        · exact Or.inr (List.mem_cons.mpr (Or.inl h1))
        · exact Or.inr (List.mem_cons.mpr (Or.inr h1))
      · simp only [List.foldl_cons, if_neg hc]
        rcases (ih cfg).2.2 with h1 | h1
        · exact Or.inl h1
        · exact Or.inr (List.mem_cons.mpr (Or.inr h1))

/-! ## Claim C1 — answer-section TTL smoothing -/

/-- Claim C1, counterexample: the running minimum of the finaliser is seeded
with the configured default TTL, here 3600; two answer records with TTL 7200
(as calculateTtl produces for a store node TTL of 7200) are rewritten to
3600, which is not the minimum 7200 of the answer TTLs before rewriting. -/
theorem C1_counterexample :
    finalizeAnswerTtls 3600 [7200, 7200] = [3600, 3600]
    ∧ [7200, 7200].foldl Nat.min 7200 = 7200
    ∧ (3600 : Nat) ≠ 7200 := by decide

/-- Claim C1 (amended): after envelope finalisation every record in a
non-empty answer section carries the same TTL; when the answer section has
more than one record that common TTL is the minimum of the configured
default TTL and the answer TTLs before rewriting (so it equals the minimum of
the prior answer TTLs only when one of them is at most the configured
default); a single-record answer is left unchanged. -/
theorem C1_finalize_uniform_min (configTtl : Nat) (answer : List Nat)
    (h : answer ≠ []) :
    ((finalizeAnswerTtls configTtl answer).length = answer.length)
    ∧ (∀ t1 ∈ finalizeAnswerTtls configTtl answer,
        ∀ t2 ∈ finalizeAnswerTtls configTtl answer, t1 = t2)
    ∧ (1 < answer.length →
        ∀ t ∈ finalizeAnswerTtls configTtl answer,
          (t = configTtl ∨ t ∈ answer) ∧ t ≤ configTtl ∧ ∀ u ∈ answer, t ≤ u)
    ∧ (answer.length = 1 → finalizeAnswerTtls configTtl answer = answer) := by
  by_cases hl : 1 < answer.length
  · have hmin := foldlTtlMin_spec answer configTtl
    refine ⟨?_, ?_, ?_, ?_⟩
    · simp [finalizeAnswerTtls, hl]
    · intro t1 h1 t2 h2
      simp only [finalizeAnswerTtls, if_pos hl, List.mem_map] at h1 h2
      obtain ⟨_, _, e1⟩ := h1
      obtain ⟨_, _, e2⟩ := h2
      rw [← e1, ← e2]
    · intro _ t ht
      simp only [finalizeAnswerTtls, if_pos hl, List.mem_map] at ht
      obtain ⟨_, _, e⟩ := ht
      rw [← e]
      exact ⟨hmin.2.2, hmin.1, hmin.2.1⟩
    · intro h1; omega
  · refine ⟨?_, ?_, ?_, ?_⟩
    · simp [finalizeAnswerTtls, hl]
    · intro t1 h1 t2 h2
      simp only [finalizeAnswerTtls, if_neg hl] at h1 h2
      match answer, h1, h2 with
      | [a], h1, h2 =>
        rcases List.mem_singleton.mp h1 with rfl
        exact (List.mem_singleton.mp h2).symm
      | a :: b :: l, _, _ => simp at hl
    · intro h1; omega
    · intro _; simp [finalizeAnswerTtls, hl]

/-- Claim C1 witness: the theorem applied at the configured default TTL 3600
and answer TTLs 7200 and 60. -/
theorem C1_witness :
    ([7200, 60] : List Nat) ≠ []
    ∧ (finalizeAnswerTtls 3600 [7200, 60]).length = ([7200, 60] : List Nat).length :=
  ⟨by decide, (C1_finalize_uniform_min 3600 [7200, 60] (by decide)).1⟩

/-! ## Claim C5 — TTL calculation -/

/-- Claim C5, counterexample: for a store node TTL of 7200, a service record
TTL of zero and a configured default TTL of 3600, calculateTtl returns 7200,
while the minimum over the nonzero values among the three, as the claim
states it, is 3600. -/
theorem C5_counterexample :
    calculateTtl 7200 0 3600 = 7200
    ∧ ttlSpecMin 7200 0 3600 = 3600
    ∧ calculateTtl 7200 0 3600 ≠ ttlSpecMin 7200 0 3600 := by decide

/-- Claim C5 (amended): the TTL assigned to emitted records is the minimum of
the store node TTL and the service record TTL, with a zero value excluded
from the minimum; the configured default TTL does not take part in the
minimum — it is used only when both of the other two are zero. -/
theorem C5_calculateTtl_min (etcdTtl servTtl configTtl : Nat) :
    (etcdTtl = 0 → servTtl = 0 → calculateTtl etcdTtl servTtl configTtl = configTtl)
    ∧ (etcdTtl ≠ 0 ∨ servTtl ≠ 0 →
        (calculateTtl etcdTtl servTtl configTtl = etcdTtl
          ∨ calculateTtl etcdTtl servTtl configTtl = servTtl)
        ∧ calculateTtl etcdTtl servTtl configTtl ≠ 0
        ∧ (etcdTtl ≠ 0 → calculateTtl etcdTtl servTtl configTtl ≤ etcdTtl)
        ∧ (servTtl ≠ 0 → calculateTtl etcdTtl servTtl configTtl ≤ servTtl)) := by
  unfold calculateTtl
  split_ifs <;> omega

/-- Claim C5 witness: the theorem applied at node TTL 7200, service TTL 0 and
configured TTL 3600. -/
theorem C5_witness :
    ((7200 : Nat) ≠ 0 ∨ (0 : Nat) ≠ 0)
    ∧ (calculateTtl 7200 0 3600 = 7200 ∨ calculateTtl 7200 0 3600 = 0) :=
  ⟨Or.inl (by decide), ((C5_calculateTtl_min 7200 0 3600).2 (Or.inl (by decide))).1⟩

/-! ## Claim C6 — forwarder failover -/

/-- The retry loop under an exchange that always fails: starting at index
nsid with remaining retries left, it attempts remaining + 1 exchanges at
circularly advancing indices and ends in SERVFAIL. -/
theorem forwardLoop_allFail (n : Nat) (hn : 0 < n) :
    ∀ remaining nsid, nsid < n →
      forwardLoop (fun _ => none) n remaining nsid
        = ((List.range (remaining + 1)).map (fun k => (nsid + k) % n),
           FwdOutcome.servFail) := by
  intro remaining
  induction remaining with
  | zero =>
    intro nsid hlt
    have h1 : List.range 1 = [0] := rfl
    simp [forwardLoop, h1, Nat.mod_eq_of_lt hlt]
  | succ m ih =>
    intro nsid hlt
    have hlt2 : (nsid + 1) % n < n := Nat.mod_lt _ hn
    have hg : (fun k => ((nsid + 1) % n + k) % n)
        = (fun k => (nsid + k) % n) ∘ Nat.succ := by
      funext k
      show ((nsid + 1) % n + k) % n = (nsid + (k + 1)) % n
      rw [Nat.mod_add_mod]
      congr 1
      omega
    have hstep : forwardLoop (fun _ => none) n (m + 1) nsid
        = (nsid :: (forwardLoop (fun _ => none) n m ((nsid + 1) % n)).1,
           (forwardLoop (fun _ => none) n m ((nsid + 1) % n)).2) := by
      simp [forwardLoop]
    rw [hstep, ih ((nsid + 1) % n) hlt2, hg, List.range_succ_eq_map (m + 1),
      List.map_cons, List.map_map]
    simp [Nat.mod_eq_of_lt hlt]

/-- Claim C6, counterexample: with one upstream nameserver whose exchanges
all fail and request id 0, the forwarder attempts two exchanges, not exactly
one, before answering SERVFAIL. -/
theorem C6_counterexample :
    (ServeDNSForward (fun _ => none) 1 0).1.length = 2
    ∧ (ServeDNSForward (fun _ => none) 1 0).2 = FwdOutcome.servFail
    ∧ (2 : Nat) ≠ 1 := by decide

/-- Claim C6 (amended): with N configured upstreams (N positive) whose
exchanges all fail with a transport error, the forwarder starts at upstream
index reqId mod N, advances circularly, and attempts exactly N + 1 upstream
exchanges in total — the initial attempt plus N retries — before writing a
SERVFAIL response. -/
theorem C6_forward_attempts (exchange : Nat → Option Nat) (n reqId : Nat)
    (hn : 0 < n) (hfail : ∀ i, exchange i = none) :
    (ServeDNSForward exchange n reqId).1
      = (List.range (n + 1)).map (fun k => (reqId % n + k) % n)
    ∧ (ServeDNSForward exchange n reqId).1.length = n + 1
    ∧ (ServeDNSForward exchange n reqId).2 = FwdOutcome.servFail
    ∧ (ServeDNSForward exchange n reqId).1.head? = some (reqId % n) := by
  have hx : exchange = fun _ => none := funext hfail
  subst hx
  have hstart : reqId % n < n := Nat.mod_lt _ hn
  have h := forwardLoop_allFail n hn n (reqId % n) hstart
  have hn0 : ¬ n = 0 := by omega
  refine ⟨?_, ?_, ?_, ?_⟩
  · simp [ServeDNSForward, hn0, h]
  · simp [ServeDNSForward, hn0, h]
  · simp [ServeDNSForward, hn0, h]
  · simp [ServeDNSForward, hn0, h, List.range_succ_eq_map, Nat.mod_eq_of_lt hstart]

/-- Claim C6 witness: the theorem applied with three upstreams, request id 7
and an exchange that always fails: four attempts are made. -/
theorem C6_witness :
    0 < 3 ∧ (ServeDNSForward (fun _ => none) 3 7).1.length = 3 + 1 :=
  ⟨by decide, (C6_forward_attempts (fun _ => none) 3 7 (by decide) (fun _ => rfl)).2.1⟩

/-! ## Claim C7 — response cache key -/

/-- Claim C7: the response cache key is the hash of the concatenation of the
query name, the query type and the DO bit, so two queries differing only in
the DO bit receive different keys. -/
theorem C7_questionKey_do (qname : List Nat) (qtype : Nat) :
    QuestionKey qname qtype true ≠ QuestionKey qname qtype false := by
  intro hEq
  have e1 : QuestionKey qname qtype true
      = (qname ++ packUint16 qtype ++ [1]) ++ sha1EmptyDigest := rfl
  have e0 : QuestionKey qname qtype false
      = (qname ++ packUint16 qtype ++ [0]) ++ sha1EmptyDigest := rfl
  rw [e1, e0] at hEq
  have h1 := List.append_cancel_right hEq
  have h2 := List.append_cancel_left h1
  simp at h2

/-! ## Claim C8 — signature cache key -/

/-- Claim C8: the SRV arm of the signature cache key serialisation appends
the Weight field twice and never the Port field, so two SRV record sets that
differ only in a member port hash to the same key, against both the claim
and the documentation comment of Key itself. -/
theorem C8_key_ignores_port :
    Key [SigRR.srv "skydns.test." 10 20 80 "server1."]
      = Key [SigRR.srv "skydns.test." 10 20 443 "server1."]
    ∧ (80 : Nat) ≠ 443 := by decide

/-! ## Claim C2 — CNAME recursion termination -/

/-- The services loop never reports the fuel artefact when either the depth
guard is already over the limit (it then errors before recursing) or every
recursive call it can make — always at a previous-records list one longer —
avoids the artefact. -/
theorem addressLoop_ne_outOfFuel (qtype : Qtype)
    (recur : String → String → List RR → List RR × Option RErr)
    (qname : String) (prev : List RR)
    (h : 7 < prev.length ∨
      ∀ t tl p, p.length = prev.length + 1 → (recur t tl p).2 ≠ some RErr.outOfFuel) :
    ∀ services acc,
      (addressLoop qtype recur qname prev services acc).2 ≠ some RErr.outOfFuel := by
  intro services
  induction services with
  | nil => intro acc; simp [addressLoop]
  | cons serv rest ih =>
    intro acc
    cases hh : serv.host with
    | name tgt =>
      simp only [addressLoop, hh]
      by_cases hlen : 7 < prev.length
      · rw [if_pos hlen]; simp
      · rw [if_neg hlen]
        by_cases hdup : isDuplicateCNAME (fqdn tgt) prev
        · rw [if_pos hdup]; simp
        · rw [if_neg hdup]
          rcases h with h | h
          · omega
          · rcases hr : recur (fqdn tgt) (strToLower (fqdn tgt))
                (prev ++ [RR.cname qname (fqdn tgt)]) with ⟨recs, err⟩
            have hr2 : err ≠ some RErr.outOfFuel := by
              have := h (fqdn tgt) (strToLower (fqdn tgt))
                (prev ++ [RR.cname qname (fqdn tgt)]) (by simp)
              rw [hr] at this
              exact this
            match err, hr2 with
            | none, _ => exact ih (acc ++ [RR.cname qname (fqdn tgt)] ++ recs)
            | some (RErr.backend e), _ => simp
            | some RErr.cnameLimit, _ => simp
            | some RErr.cnameLoop, _ => simp
            | some RErr.incompleteChain, _ => simp
            | some RErr.outOfFuel, hr2 => exact absurd rfl hr2
    | ip4 addr =>
      simp only [addressLoop, hh]
      exact ih _
    | ip6 addr =>
      simp only [addressLoop, hh]
      exact ih _

/-- Claim C2: AddressRecords terminates for every input.  Formally: (1) with
fuel at least 1 and at least 9 minus the previous-records length — in
particular fuel 9 at the top-level call with empty previousRecords — the fuel
of the embedding is never exhausted, for every backend, including backends
whose CNAME chains are cyclic; (2) when the previous-records list already
exceeds 7 entries, a further CNAME service returns the
exceeded-CNAME-lookup-limit error instead of recursing; (3) a CNAME whose
target equals the target of a previously emitted CNAME of the same
resolution returns the CNAME-loop error. -/
theorem C2_addressRecords_terminates :
    (∀ backend shuffle roundRobin qtype fuel qname name prev,
      9 ≤ fuel + prev.length → 1 ≤ fuel →
      (AddressRecords backend shuffle roundRobin qtype fuel qname name prev).2
        ≠ some RErr.outOfFuel)
    ∧ (∀ backend shuffle roundRobin qtype fuel qname name prev serv rest tgt,
      1 ≤ fuel → backend name = Except.ok (serv :: rest) →
      serv.host = Host.name tgt → 7 < prev.length →
      AddressRecords backend shuffle roundRobin qtype fuel qname name prev
        = ([], some RErr.cnameLimit))
    ∧ (∀ backend shuffle roundRobin qtype fuel qname name prev serv rest tgt,
      1 ≤ fuel → backend name = Except.ok (serv :: rest) →
      serv.host = Host.name tgt → prev.length ≤ 7 →
      isDuplicateCNAME (fqdn tgt) prev = true →
      AddressRecords backend shuffle roundRobin qtype fuel qname name prev
        = ([], some RErr.cnameLoop)) := by
  refine ⟨?_, ?_, ?_⟩
  · intro backend shuffle roundRobin qtype fuel
    induction fuel with
    | zero => intro qname name prev h1 h2; omega
    | succ fuel ih =>
      intro qname name prev h1 _
      rcases hb : backend name with e | services
      · simp [AddressRecords, hb]
      · have hside : 7 < prev.length ∨
            ∀ t tl p, p.length = prev.length + 1 →
              ((fun t tl p => AddressRecords backend shuffle roundRobin qtype fuel t tl p)
                t tl p).2 ≠ some RErr.outOfFuel := by
          by_cases hlen : 7 < prev.length
          · exact Or.inl hlen
          · refine Or.inr ?_
            intro t tl p hp
            exact ih t tl p (by omega) (by omega)
        have hloop := addressLoop_ne_outOfFuel qtype
          (fun t tl p => AddressRecords backend shuffle roundRobin qtype fuel t tl p)
          qname prev hside services []
        rcases hres : addressLoop qtype
            (fun t tl p => AddressRecords backend shuffle roundRobin qtype fuel t tl p)
            qname prev services [] with ⟨recs, err⟩
        rw [hres] at hloop
        simp only [AddressRecords, hb, hres]
        match err, hloop with
        | none, _ => simp
        | some (RErr.backend e), _ => simp
        | some RErr.cnameLimit, _ => simp
        | some RErr.cnameLoop, _ => simp
        | some RErr.incompleteChain, _ => simp
        | some RErr.outOfFuel, hloop => exact absurd rfl hloop
  · intro backend shuffle roundRobin qtype fuel qname name prev serv rest tgt hf hb hh hlen
    match fuel, hf with
    | fuel + 1, _ =>
      simp only [AddressRecords]
      rw [hb]
      simp only [addressLoop, hh]
      rw [if_pos hlen]
  · intro backend shuffle roundRobin qtype fuel qname name prev serv rest tgt hf hb hh hlen hdup
    match fuel, hf with
    | fuel + 1, _ =>
      simp only [AddressRecords]
      rw [hb]
      simp only [addressLoop, hh]
      rw [if_neg (by omega : ¬ 7 < prev.length), if_pos hdup]

/-- Claim C2 witness: the theorem applied with fuel 9 and empty
previousRecords on the cyclic two-CNAME backend of the loop test fixture. -/
theorem C2_witness :
    (9 ≤ 9 + ([] : List RR).length ∧ 1 ≤ 9)
    ∧ (AddressRecords cycBackend id false Qtype.A 9 "3.cname.skydns.test."
        "3.cname.skydns.test." []).2 ≠ some RErr.outOfFuel :=
  ⟨⟨by decide, by decide⟩,
    C2_addressRecords_terminates.1 cycBackend id false Qtype.A 9
      "3.cname.skydns.test." "3.cname.skydns.test." [] (by decide) (by decide)⟩

/-! ## Claim C3 — handler response to CNAME loops -/

/-- The fall-through reply construction always carries rcode NOERROR. -/
theorem finishReply_rcode (records : List RR) :
    (finishReply records).rcode = Rcode.noError := by
  unfold finishReply
  split <;> rfl

/-- Claim C3, counterexample: on the CNAME two-cycle of the loop test fixture
(3.cname pointing at 4.cname pointing back at 3.cname), the loop error is
raised in the nested resolution step, the parent recursion converts it to the
incomplete-CNAME-chain error with the partial chain, and the handler — with
no external target in the chain — answers NODATA: rcode NOERROR with empty
answer and the SOA in the authority section, not NXDOMAIN. -/
theorem C3_counterexample :
    (AddressRecords cycBackend id false Qtype.A 7 "3.cname.skydns.test."
        "3.cname.skydns.test."
        [RR.cname "3.cname.skydns.test." "4.cname.skydns.test.",
         RR.cname "4.cname.skydns.test." "3.cname.skydns.test."]).2
      = some RErr.cnameLoop
    ∧ AddressRecords cycBackend id false Qtype.A addressFuel "3.cname.skydns.test."
        "3.cname.skydns.test." []
      = ([RR.cname "3.cname.skydns.test." "4.cname.skydns.test."],
         some RErr.incompleteChain)
    ∧ serveAddressQuery cycBackend id false (fun _ _ => none) "skydns.test." Qtype.A
        "3.cname.skydns.test." = noDataReply
    ∧ noDataReply.rcode ≠ Rcode.nameError := by decide

/-- Claim C3 (amended): a CNAME-loop or CNAME-limit error never reaches the
A/AAAA handler arm as such from the top-level resolution — the parent
recursion converts any nested failure into the incomplete-CNAME-chain error,
returning the partial chain.  (1) A loop or limit error of the top-level call
itself falls through and yields the NODATA shape; (2) an incomplete chain
with a non-empty record set all of whose CNAME targets lie inside the
authoritative domain (always the case for an internal loop) yields NODATA:
rcode NOERROR, empty answer, SOA in authority; (3) the reply rcode is
NXDOMAIN exactly when the backend reported not-found for the query name or
the incomplete chain carried no records at all. -/
theorem C3_loop_gives_nodata (backend : Backend) (shuffle : List RR → List RR)
    (roundRobin : Bool) (lookup : String → Qtype → Option (List RR))
    (domain : String) (qtype : Qtype) (qname : String) (recs : List RR) :
    ((AddressRecords backend shuffle roundRobin qtype addressFuel qname
          (strToLower qname) [] = (recs, some RErr.cnameLoop)
        ∨ AddressRecords backend shuffle roundRobin qtype addressFuel qname
          (strToLower qname) [] = (recs, some RErr.cnameLimit)) →
      serveAddressQuery backend shuffle roundRobin lookup domain qtype qname
        = finishReply recs)
    ∧ (AddressRecords backend shuffle roundRobin qtype addressFuel qname
          (strToLower qname) [] = (recs, some RErr.incompleteChain) →
        recs ≠ [] → firstExternalCnameTarget domain recs = "" →
        serveAddressQuery backend shuffle roundRobin lookup domain qtype qname
          = noDataReply)
    ∧ ((serveAddressQuery backend shuffle roundRobin lookup domain qtype qname).rcode
          = Rcode.nameError ↔
        ((AddressRecords backend shuffle roundRobin qtype addressFuel qname
            (strToLower qname) []).2 = some (RErr.backend BErr.notFound)
          ∨ AddressRecords backend shuffle roundRobin qtype addressFuel qname
            (strToLower qname) [] = ([], some RErr.incompleteChain))) := by
  rcases hr : AddressRecords backend shuffle roundRobin qtype addressFuel qname
      (strToLower qname) [] with ⟨rs, err⟩
  refine ⟨?_, ?_, ?_⟩
  · intro hcase
    rcases hcase with h | h <;>
      simp only [Prod.mk.injEq] at h <;>
      obtain ⟨rfl, rfl⟩ := h <;>
      simp [serveAddressQuery, hr]
  · intro h hne hext
    simp only [Prod.mk.injEq] at h
    obtain ⟨rfl, rfl⟩ := h
    have hlen : ¬ rs.length = 0 := by
      intro h0
      exact hne (List.length_eq_zero.mp h0)
    simp [serveAddressQuery, hr, hlen, hext]
  · match err with
    | none =>
      simp [serveAddressQuery, hr, finishReply_rcode]
    | some (RErr.backend BErr.notFound) =>
      simp [serveAddressQuery, hr, nameErrorReply]
    | some (RErr.backend BErr.other) =>
      simp [serveAddressQuery, hr, finishReply_rcode]
    | some RErr.cnameLimit =>
      simp [serveAddressQuery, hr, finishReply_rcode]
    | some RErr.cnameLoop =>
      simp [serveAddressQuery, hr, finishReply_rcode]
    | some RErr.outOfFuel =>
      simp [serveAddressQuery, hr, finishReply_rcode]
    | some RErr.incompleteChain =>
      by_cases hlen : rs.length = 0
      · have hrs : rs = [] := List.length_eq_zero.mp hlen
        subst hrs
        simp [serveAddressQuery, hr, nameErrorReply]
      · have hne : ¬ rs = [] := by
          intro h0
          rw [h0] at hlen
          exact hlen rfl
        simp only [serveAddressQuery, hr, if_neg hlen]
        constructor
        · intro hcode
          by_cases hext : firstExternalCnameTarget domain rs = ""
          · rw [if_pos hext] at hcode
            exact absurd hcode (by simp [noDataReply])
          · rw [if_neg hext] at hcode
            rcases hl : lookup (firstExternalCnameTarget domain rs) qtype with _ | ans
            · rw [hl] at hcode
              exact absurd hcode (by simp [noDataReply])
            · rw [hl] at hcode
              rw [finishReply_rcode] at hcode
              exact absurd hcode (by simp)
        · intro hcase
          rcases hcase with h | h
          · simp at h
          · simp only [Prod.mk.injEq] at h
            exact absurd h.1 hne

/-- Claim C3 witness: the amended theorem applied on the loop test fixture
backend, where the handler produces the NODATA reply. -/
theorem C3_witness :
    serveAddressQuery cycBackend id false (fun _ _ => none) "skydns.test." Qtype.A
      "3.cname.skydns.test." = noDataReply :=
  (C3_loop_gives_nodata cycBackend id false (fun _ _ => none) "skydns.test." Qtype.A
    "3.cname.skydns.test."
    [RR.cname "3.cname.skydns.test." "4.cname.skydns.test."]).2.1
    (by decide) (by decide) (by decide)

/-! ## Claim C4 — SRV weight normalisation -/

/-- The folded map update of the first SRVRecords pass evaluates, at any
priority, to the seed plus the summed effective weights of the services of
that priority. -/
theorem weightTotals_foldl (services : List Service) :
    ∀ (f : Nat → Nat) (p : Nat),
      services.foldl
        (fun w serv => fun q => if q = serv.priority then w q + effWeight serv else w q)
        f p
      = f p + ((services.filter (fun s => s.priority = p)).map effWeight).sum := by
  induction services with
  | nil => intro f p; simp
  | cons serv rest ih =>
    intro f p
    simp only [List.foldl_cons]
    rw [ih]
    by_cases hp : p = serv.priority
    · rw [if_pos hp]
      have hf : serv.priority = p := hp.symm
      simp [List.filter_cons, hf]
      omega
    · rw [if_neg hp]
      have hf : ¬ serv.priority = p := fun hc => hp hc.symm
      simp [List.filter_cons, hf]

/-- The per-priority total of the first pass is the sum of effective weights
over the services of that priority. -/
theorem weightTotals_apply (services : List Service) (p : Nat) :
    weightTotals services p
      = ((services.filter (fun s => s.priority = p)).map effWeight).sum := by
  unfold weightTotals
  rw [weightTotals_foldl]
  simp

/-- Floor division loses against a common denominator. -/
theorem div_add_div_le (a b c : Nat) : a / c + b / c ≤ (a + b) / c := by
  rcases Nat.eq_zero_or_pos c with hc | hc
  · subst hc; simp
  · rw [Nat.le_div_iff_mul_le hc]
    have h1 : a / c * c ≤ a := Nat.div_mul_le_self a c
    have h2 : b / c * c ≤ b := Nat.div_mul_le_self b c
    calc (a / c + b / c) * c = a / c * c + b / c * c := by ring
      _ ≤ a + b := by omega

/-- Summing floor divisions under a common denominator stays below the floor
division of the sum. -/
theorem sum_div_le (l : List Nat) (c : Nat) :
    (l.map (fun a => a / c)).sum ≤ l.sum / c := by
  induction l with
  | nil => simp
  | cons a l ih =>
    simp only [List.map_cons, List.sum_cons]
    calc a / c + (l.map (fun x => x / c)).sum
        ≤ a / c + l.sum / c := by omega
      _ ≤ (a + l.sum) / c := div_add_div_le a l.sum c

/-- Scaling every element by 100 scales the sum by 100. -/
theorem sum_map_mul_hundred (l : List Nat) :
    (l.map (fun w => 100 * w)).sum = 100 * l.sum := by
  induction l with
  | nil => simp
  | cons a l ih =>
    simp [ih]
    ring

/-- Normalising a list of weights against its own total by floor division
sums to at most 100. -/
theorem class_weight_sum_le (cs : List Nat) :
    (cs.map (fun w => 100 * w / cs.sum)).sum ≤ 100 := by
  rcases Nat.eq_zero_or_pos cs.sum with h | h
  · simp [h]
  · have h1 : (cs.map (fun w => 100 * w / cs.sum)).sum
        ≤ (cs.map (fun w => 100 * w)).sum / cs.sum := by
      have h2 := sum_div_le (cs.map (fun w => 100 * w)) cs.sum
      rw [List.map_map] at h2
      exact h2
    rw [sum_map_mul_hundred] at h1
    calc (cs.map (fun w => 100 * w / cs.sum)).sum
        ≤ 100 * cs.sum / cs.sum := h1
      _ = 100 := Nat.mul_div_cancel 100 h

/-- The effective weight of a service is always at least one. -/
theorem effWeight_pos (s : Service) : 1 ≤ effWeight s := by
  unfold effWeight
  split <;> omega

/-- Rounding to nearest with ties to even overshoots the exact quotient by at
most half a unit: 2 * round(p / q) * q ≤ 2 * p + q. -/
theorem roundHalfEven_le (p q : Nat) (hq : 1 ≤ q) :
    2 * roundHalfEven p q * q ≤ 2 * p + q := by
  simp only [roundHalfEven]
  have hpq : p / q * q + p % q = p := Nat.div_add_mod' p q
  have hr : p % q < q := Nat.mod_lt _ (by omega)
  generalize hn : p / q = n at *
  generalize hm : p % q = r at *
  split_ifs <;> nlinarith [hpq, hr]

/-- Rounding to nearest never drops below the floor of the quotient. -/
theorem roundHalfEven_ge (p q : Nat) : p / q ≤ roundHalfEven p q := by
  simp only [roundHalfEven]
  split_ifs <;> omega

/-- With enough fuel, bitlenAux computes the binary digit count: for positive
n the result k is positive and satisfies 2 ^ (k - 1) ≤ n < 2 ^ k. -/
theorem bitlenAux_bounds : ∀ fuel n, n ≤ fuel → 1 ≤ n →
    2 ^ (bitlenAux fuel n - 1) ≤ n ∧ n < 2 ^ bitlenAux fuel n ∧ 1 ≤ bitlenAux fuel n := by
  intro fuel
  induction fuel with
  | zero => intro n h1 h2; omega
  | succ fuel ih =>
    intro n h1 h2
    have hn0 : ¬ n = 0 := by omega
    simp only [bitlenAux, if_neg hn0]
    by_cases hone : n = 1
    · subst hone
      have h0 : bitlenAux fuel 0 = 0 := by cases fuel <;> rfl
      norm_num [h0]
    · have hge2 : 2 ≤ n := by omega
      have hhalf1 : 1 ≤ n / 2 := by omega
      have hhalf2 : n / 2 ≤ fuel := by omega
      obtain ⟨ha, hb, hc⟩ := ih (n / 2) hhalf2 hhalf1
      refine ⟨?_, ?_, by omega⟩
      · have e1 : bitlenAux fuel (n / 2) + 1 - 1 = bitlenAux fuel (n / 2) := by omega
        rw [e1]
        have e2 : (2:Nat) ^ bitlenAux fuel (n / 2)
            = 2 * 2 ^ (bitlenAux fuel (n / 2) - 1) := by
          rw [← pow_succ']
          congr 1
          omega
        rw [e2]
        omega
      · have e2 : (2:Nat) ^ (bitlenAux fuel (n / 2) + 1)
            = 2 * 2 ^ bitlenAux fuel (n / 2) := by rw [pow_succ']
        rw [e2]
        omega

/-- The binary digit count of a positive number k satisfies
2 ^ (k - 1) ≤ n < 2 ^ k and is positive. -/
theorem bitlen_bounds (n : Nat) (hn : 1 ≤ n) :
    2 ^ (bitlen n - 1) ≤ n ∧ n < 2 ^ bitlen n ∧ 1 ≤ bitlen n :=
  bitlenAux_bounds n n (le_refl n) hn

/-- The scale chosen by floatScale shifts the fraction p / q to at least
2 ^ 52: q * 2 ^ 52 ≤ p * 2 ^ floatScale p q for positive p and q. -/
theorem floatScale_lower (p q : Nat) (hp : 1 ≤ p) (hq : 1 ≤ q) :
    q * 2 ^ 52 ≤ p * 2 ^ floatScale p q := by
  obtain ⟨hp1, hp2, hp3⟩ := bitlen_bounds p hp
  obtain ⟨hq1, hq2, hq3⟩ := bitlen_bounds q hq
  unfold floatScale
  by_cases hguard : bitlen q + 52 < bitlen p
  · rw [if_pos hguard]
    have h1 : q * 2 ^ 52 < 2 ^ (bitlen q + 52) := by
      rw [pow_add]
      exact Nat.mul_lt_mul_of_lt_of_le hq2 (le_refl _) (by positivity)
    have h2 : (2:Nat) ^ (bitlen q + 52) ≤ 2 ^ (bitlen p - 1) :=
      Nat.pow_le_pow_right (by omega) (by omega)
    have h3 : p * 2 ^ 0 = p := by ring
    omega
  · rw [if_neg hguard]
    by_cases htest : q * 2 ^ 52 ≤ p * 2 ^ (52 + bitlen q - bitlen p)
    · simp only [if_pos htest]
      exact htest
    · simp only [if_neg htest]
      have hexp : (bitlen p - 1) + (52 + bitlen q - bitlen p + 1) = bitlen q + 52 := by
        omega
      have h1 : q * 2 ^ 52 ≤ 2 ^ (bitlen q + 52) := by
        rw [pow_add]
        exact Nat.mul_le_mul_right _ (by omega)
      have h2 : (2:Nat) ^ (bitlen q + 52)
          = 2 ^ (bitlen p - 1) * 2 ^ (52 + bitlen q - bitlen p + 1) := by
        rw [← pow_add, hexp]
      have h3 : 2 ^ (bitlen p - 1) * 2 ^ (52 + bitlen q - bitlen p + 1)
          ≤ p * 2 ^ (52 + bitlen q - bitlen p + 1) :=
        Nat.mul_le_mul_right _ hp1
      omega

/-- The double-rounded float64 weight never exceeds the exact floor
floor(100 * w / W), for a member weight w between 1 and the class total W and
a class total of at most 2 ^ 40 (amply covering sums of 16-bit SRV
weights). -/
theorem srvWeightFloat_le (w W : Nat) (hw : 1 ≤ w) (hwW : w ≤ W) (hWB : W ≤ 2 ^ 40) :
    srvWeightFloat w W ≤ 100 * w / W := by
  have hW : 1 ≤ W := le_trans hw hwW
  set s1 := floatScale 100 W with hs1
  set m1 := roundHalfEven (100 * 2 ^ s1) W with hm1
  set s2 := floatScale (m1 * w) (2 ^ s1) with hs2
  set m2 := roundHalfEven (m1 * w * 2 ^ s2) (2 ^ s1) with hm2
  have hval : srvWeightFloat w W = m2 / 2 ^ s2 := by
    rw [hm2, hs2, hm1, hs1]
    rfl
  have hD1 : W * 2 ^ 52 ≤ 100 * 2 ^ s1 := by
    rw [hs1]
    exact floatScale_lower 100 W (by omega) hW
  have hB1 : 2 * m1 * W ≤ 2 * (100 * 2 ^ s1) + W := by
    rw [hm1]
    exact roundHalfEven_le _ _ hW
  have hm1pos : 1 ≤ m1 := by
    have h1 : 100 * 2 ^ s1 / W ≤ m1 := by
      rw [hm1]
      exact roundHalfEven_ge _ _
    have h2 : W * 2 ^ 52 / W ≤ 100 * 2 ^ s1 / W := Nat.div_le_div_right hD1
    rw [Nat.mul_div_cancel_left _ (show 0 < W by omega)] at h2
    have h3 : (1:Nat) ≤ 2 ^ 52 := Nat.one_le_pow _ _ (by omega)
    omega
  have hmw : 1 ≤ m1 * w := by
    have := Nat.mul_le_mul hm1pos hw
    simpa using this
  have hs1p : (1:Nat) ≤ 2 ^ s1 := Nat.one_le_pow _ _ (by omega)
  have hs2p : (1:Nat) ≤ 2 ^ s2 := Nat.one_le_pow _ _ (by omega)
  have hD2 : 2 ^ s1 * 2 ^ 52 ≤ m1 * w * 2 ^ s2 := by
    rw [hs2]
    exact floatScale_lower (m1 * w) (2 ^ s1) hmw hs1p
  have hB2 : 2 * m2 * 2 ^ s1 ≤ 2 * (m1 * w * 2 ^ s2) + 2 ^ s1 := by
    rw [hm2]
    exact roundHalfEven_le _ _ hs1p
  have hWw : W * w < 2 ^ s1 := by
    have h1 : W * w * 2 ^ 52 ≤ 100 * 2 ^ s1 * w := by
      calc W * w * 2 ^ 52 = W * 2 ^ 52 * w := by ring
        _ ≤ 100 * 2 ^ s1 * w := Nat.mul_le_mul_right _ hD1
    have h2 : 100 * 2 ^ s1 * w ≤ 100 * 2 ^ s1 * W := Nat.mul_le_mul_left _ hwW
    have h3 : 100 * 2 ^ s1 * W ≤ 100 * 2 ^ s1 * 2 ^ 40 := Nat.mul_le_mul_left _ hWB
    have h4 : 100 * 2 ^ s1 * 2 ^ 40 < 2 ^ s1 * 2 ^ 52 := by
      have h5 : (100:Nat) * 2 ^ 40 < 2 ^ 52 := by norm_num
      calc 100 * 2 ^ s1 * 2 ^ 40 = 2 ^ s1 * (100 * 2 ^ 40) := by ring
        _ < 2 ^ s1 * 2 ^ 52 := by
            exact Nat.mul_lt_mul_of_le_of_lt (le_refl _) h5 (by positivity)
    have h6 : W * w * 2 ^ 52 < 2 ^ s1 * 2 ^ 52 := by omega
    exact Nat.lt_of_mul_lt_mul_right h6
  have hWs1 : W ≤ 2 ^ s1 := by
    have h2 : W * 2 ^ 52 ≤ 2 ^ s1 * 2 ^ 52 := by
      calc W * 2 ^ 52 ≤ 100 * 2 ^ s1 := hD1
        _ ≤ 2 ^ 52 * 2 ^ s1 := Nat.mul_le_mul_right _ (by norm_num)
        _ = 2 ^ s1 * 2 ^ 52 := Nat.mul_comm _ _
    exact Nat.le_of_mul_le_mul_right h2 (by positivity)
  have hm1W : 2 * (m1 * W) ≤ 201 * 2 ^ s1 := by
    calc 2 * (m1 * W) = 2 * m1 * W := by ring
      _ ≤ 2 * (100 * 2 ^ s1) + W := hB1
      _ ≤ 2 * (100 * 2 ^ s1) + 2 ^ s1 := by omega
      _ = 201 * 2 ^ s1 := by ring
  have hWs2 : W < 2 ^ s2 := by
    have h2 : m1 * w * 2 ^ s2 ≤ m1 * W * 2 ^ s2 :=
      Nat.mul_le_mul_right _ (Nat.mul_le_mul_left _ hwW)
    have h5 : 2 * 2 ^ 52 * 2 ^ s1 ≤ 201 * 2 ^ s2 * 2 ^ s1 := by
      calc 2 * 2 ^ 52 * 2 ^ s1 = 2 * (2 ^ s1 * 2 ^ 52) := by ring
        _ ≤ 2 * (m1 * w * 2 ^ s2) := by omega
        _ ≤ 2 * (m1 * W * 2 ^ s2) := by omega
        _ = 2 * (m1 * W) * 2 ^ s2 := by ring
        _ ≤ 201 * 2 ^ s1 * 2 ^ s2 := Nat.mul_le_mul_right _ hm1W
        _ = 201 * 2 ^ s2 * 2 ^ s1 := by ring
    have h6 : 2 * 2 ^ 52 ≤ 201 * 2 ^ s2 := Nat.le_of_mul_le_mul_right h5 (by positivity)
    by_contra hcon
    push_neg at hcon
    have h7 : 201 * 2 ^ s2 ≤ 201 * 2 ^ 40 :=
      Nat.mul_le_mul_left _ (le_trans hcon hWB)
    have h8 : 201 * 2 ^ 40 < 2 * 2 ^ 52 := by norm_num
    omega
  have hk : W * (100 * w / W) + 100 * w % W = 100 * w := Nat.div_add_mod (100 * w) W
  have hrW : 100 * w % W < W := Nat.mod_lt _ (by omega)
  have hscaled : 2 * 2 ^ s1 * W * m2 < 2 * 2 ^ s1 * W * ((100 * w / W + 1) * 2 ^ s2) := by
    have hP1 : 2 * m2 * 2 ^ s1 * W ≤ 2 * (m1 * w * 2 ^ s2) * W + 2 ^ s1 * W :=
      calc 2 * m2 * 2 ^ s1 * W
          ≤ (2 * (m1 * w * 2 ^ s2) + 2 ^ s1) * W := Nat.mul_le_mul_right _ hB2
        _ = 2 * (m1 * w * 2 ^ s2) * W + 2 ^ s1 * W := by ring
    have hP2 : 2 * (m1 * w * 2 ^ s2) * W
        ≤ 2 * (100 * 2 ^ s1) * (w * 2 ^ s2) + W * (w * 2 ^ s2) :=
      calc 2 * (m1 * w * 2 ^ s2) * W = 2 * m1 * W * (w * 2 ^ s2) := by ring
        _ ≤ (2 * (100 * 2 ^ s1) + W) * (w * 2 ^ s2) := Nat.mul_le_mul_right _ hB1
        _ = 2 * (100 * 2 ^ s1) * (w * 2 ^ s2) + W * (w * 2 ^ s2) := by ring
    have hP3 : 2 * (100 * 2 ^ s1) * (w * 2 ^ s2)
        = 2 * (W * (100 * w / W)) * (2 ^ s1 * 2 ^ s2)
          + 2 * (100 * w % W) * (2 ^ s1 * 2 ^ s2) := by
      calc 2 * (100 * 2 ^ s1) * (w * 2 ^ s2)
          = 2 * (100 * w) * (2 ^ s1 * 2 ^ s2) := by ring
        _ = 2 * (W * (100 * w / W) + 100 * w % W) * (2 ^ s1 * 2 ^ s2) := by rw [hk]
        _ = 2 * (W * (100 * w / W)) * (2 ^ s1 * 2 ^ s2)
              + 2 * (100 * w % W) * (2 ^ s1 * 2 ^ s2) := by ring
    have hP4 : 2 * (100 * w % W) * (2 ^ s1 * 2 ^ s2) + 2 * (2 ^ s1 * 2 ^ s2)
        ≤ 2 * W * (2 ^ s1 * 2 ^ s2) := by
      have h9 : 2 * (100 * w % W) + 2 ≤ 2 * W := by omega
      calc 2 * (100 * w % W) * (2 ^ s1 * 2 ^ s2) + 2 * (2 ^ s1 * 2 ^ s2)
          = (2 * (100 * w % W) + 2) * (2 ^ s1 * 2 ^ s2) := by ring
        _ ≤ 2 * W * (2 ^ s1 * 2 ^ s2) := Nat.mul_le_mul_right _ h9
    have hP5 : W * (w * 2 ^ s2) < 2 ^ s1 * 2 ^ s2 := by
      calc W * (w * 2 ^ s2) = W * w * 2 ^ s2 := by ring
        _ < 2 ^ s1 * 2 ^ s2 := Nat.mul_lt_mul_of_lt_of_le hWw (le_refl _) (by positivity)
    have hP6 : 2 ^ s1 * W < 2 ^ s1 * 2 ^ s2 :=
      Nat.mul_lt_mul_of_le_of_lt (le_refl _) hWs2 (by positivity)
    calc 2 * 2 ^ s1 * W * m2 = 2 * m2 * 2 ^ s1 * W := by ring
      _ ≤ 2 * (m1 * w * 2 ^ s2) * W + 2 ^ s1 * W := hP1
      _ ≤ 2 * (100 * 2 ^ s1) * (w * 2 ^ s2) + W * (w * 2 ^ s2) + 2 ^ s1 * W := by omega
      _ = 2 * (W * (100 * w / W)) * (2 ^ s1 * 2 ^ s2)
            + 2 * (100 * w % W) * (2 ^ s1 * 2 ^ s2)
            + W * (w * 2 ^ s2) + 2 ^ s1 * W := by rw [hP3]
      _ < 2 * (W * (100 * w / W)) * (2 ^ s1 * 2 ^ s2)
            + 2 * (100 * w % W) * (2 ^ s1 * 2 ^ s2)
            + 2 * (2 ^ s1 * 2 ^ s2) := by omega
      _ ≤ 2 * (W * (100 * w / W)) * (2 ^ s1 * 2 ^ s2)
            + 2 * W * (2 ^ s1 * 2 ^ s2) := by omega
      _ = 2 * 2 ^ s1 * W * ((100 * w / W + 1) * 2 ^ s2) := by ring
  have hfin : m2 < (100 * w / W + 1) * 2 ^ s2 :=
    lt_of_mul_lt_mul_left hscaled (Nat.zero_le _)
  rw [hval]
  have hdiv : m2 / 2 ^ s2 < 100 * w / W + 1 :=
    (Nat.div_lt_iff_lt_mul (show 0 < 2 ^ s2 by positivity)).mpr hfin
  omega

/-- Summing the float64 member weights of one class stays below the sum of
the exact floors, member by member. -/
theorem srvWeightFloat_sum_le (l : List Nat) (W : Nat)
    (hmem : ∀ x ∈ l, 1 ≤ x ∧ x ≤ W) (hWB : W ≤ 2 ^ 40) :
    (l.map (fun w => srvWeightFloat w W)).sum ≤ (l.map (fun w => 100 * w / W)).sum := by
  induction l with
  | nil => simp
  | cons a t ih =>
    simp only [List.map_cons, List.sum_cons]
    have ha := hmem a (List.mem_cons_self a t)
    have h1 := srvWeightFloat_le a W ha.1 ha.2 hWB
    have h2 := ih (fun x hx => hmem x (List.mem_cons_of_mem a hx))
    omega

/-- Claim C4, amended: for the SRV answer set synthesised from a list of
service records, (1) one SRV is emitted per service; (2) the emitted weight
of each service is the double-rounded binary64 evaluation of
100.0 / W[p] * w, with w the service weight or 100 when zero and W[p] the
per-priority total of those effective weights — not the exact floor, which it
can undershoot by one; (3) every emitted weight is nonnegative; (4) each
emitted weight is at most floor(100 * w / W[p]) whenever the class total is
at most 2 ^ 40 (amply covering sums of 16-bit SRV weights); (5) under the
same bound the emitted weights of each priority class sum to at most 100. -/
theorem C4_srv_weights_float (services : List Service) :
    ((srvEmittedWeights services).length = services.length)
    ∧ (∀ pr ∈ services.zip (srvEmittedWeights services),
        pr.2 = (pr.1.priority,
          srvWeightFloat (effWeight pr.1) (weightTotals services pr.1.priority)))
    ∧ (∀ e ∈ srvEmittedWeights services, 0 ≤ e.2)
    ∧ (∀ pr ∈ services.zip (srvEmittedWeights services),
        weightTotals services pr.1.priority ≤ 2 ^ 40 →
        pr.2.2 ≤ 100 * effWeight pr.1 / weightTotals services pr.1.priority)
    ∧ (∀ p, weightTotals services p ≤ 2 ^ 40 →
        (((srvEmittedWeights services).filter (fun e => e.1 = p)).map
          (fun e => e.2)).sum ≤ 100) := by
  have hz := List.zip_map' (fun s : Service => s)
    (fun s : Service =>
      (s.priority, srvWeightFloat (effWeight s) (weightTotals services s.priority)))
    services
  simp only [List.map_id'] at hz
  have hzip : services.zip (srvEmittedWeights services)
      = services.map (fun s => (s,
          (s.priority, srvWeightFloat (effWeight s) (weightTotals services s.priority)))) := by
    rw [show srvEmittedWeights services
        = services.map (fun s =>
            (s.priority, srvWeightFloat (effWeight s) (weightTotals services s.priority)))
      from rfl, hz]
  refine ⟨by simp [srvEmittedWeights], ?_, fun e _ => Nat.zero_le _, ?_, ?_⟩
  · intro pr hpr
    rw [hzip] at hpr
    obtain ⟨s, hs, rfl⟩ := List.mem_map.mp hpr
    rfl
  · intro pr hpr hWB
    rw [hzip] at hpr
    obtain ⟨s, hs, rfl⟩ := List.mem_map.mp hpr
    have heffW : effWeight s ≤ weightTotals services s.priority := by
      rw [weightTotals_apply]
      have hsf : s ∈ services.filter (fun t => t.priority = s.priority) :=
        List.mem_filter.mpr ⟨hs, by simp⟩
      have hsm : effWeight s ∈ (services.filter (fun t => t.priority = s.priority)).map effWeight :=
        List.mem_map.mpr ⟨s, hsf, rfl⟩
      exact List.single_le_sum (fun x _ => Nat.zero_le x) _ hsm
    exact srvWeightFloat_le _ _ (effWeight_pos s) heffW hWB
  · intro p hWB
    have hfm : (srvEmittedWeights services).filter (fun e => e.1 = p)
        = (services.filter (fun s => s.priority = p)).map
            (fun s => (s.priority, srvWeightFloat (effWeight s) (weightTotals services s.priority))) := by
      unfold srvEmittedWeights
      rw [List.filter_map]
      rfl
    rw [hfm, List.map_map]
    have hmem : ∀ s ∈ services.filter (fun s => s.priority = p),
        ((fun e : Nat × Nat => e.2) ∘ fun s : Service =>
          (s.priority, srvWeightFloat (effWeight s) (weightTotals services s.priority))) s
        = (fun s : Service => srvWeightFloat (effWeight s) (weightTotals services p)) s := by
      intro s hs
      have hp : s.priority = p := by
        have := (List.mem_filter.mp hs).2
        simpa using this
      simp [Function.comp, hp]
    rw [List.map_congr_left hmem]
    have hW : weightTotals services p
        = ((services.filter (fun s => s.priority = p)).map effWeight).sum :=
      weightTotals_apply services p
    have hsum1 : ((services.filter (fun s => s.priority = p)).map
          (fun s => srvWeightFloat (effWeight s) (weightTotals services p))).sum
        ≤ ((services.filter (fun s => s.priority = p)).map
          (fun s => 100 * effWeight s / weightTotals services p)).sum := by
      have hstep := srvWeightFloat_sum_le
        ((services.filter (fun s => s.priority = p)).map effWeight)
        (weightTotals services p)
        (by
          intro x hx
          obtain ⟨s, hs, rfl⟩ := List.mem_map.mp hx
          refine ⟨effWeight_pos s, ?_⟩
          rw [hW]
          exact List.single_le_sum (fun y _ => Nat.zero_le y) _
            (List.mem_map.mpr ⟨s, hs, rfl⟩))
        hWB
      rw [List.map_map, List.map_map] at hstep
      exact hstep
    have hsum2 : ((services.filter (fun s => s.priority = p)).map
          (fun s => 100 * effWeight s / weightTotals services p)).sum ≤ 100 := by
      have hgoal := class_weight_sum_le
        ((services.filter (fun s => s.priority = p)).map effWeight)
      rw [List.map_map] at hgoal
      rw [hW]
      exact hgoal
    omega

/-- Claim C4 counterexample: a single service of priority 10 and weight 97 is
its own class total, so the claimed floor formula gives
floor(100 * 97 / 97) = 100, but the program computes
uint16(math.Floor(100.0 / 97.0 * 97.0)) = 99, because the binary64 quotient
100.0 / 97 rounds down and the product with 97 lands just below 100. -/
theorem C4_counterexample :
    srvEmittedWeights [{ host := Host.ip4 1, priority := 10, weight := 97 }] = [(10, 99)]
    ∧ 100 * 97 / 97 = 100 := by
  constructor
  · decide
  · decide

/-- Claim C4 witness: the amended theorem applied to the three-service
fixture, whose priority-10 class total 300 is within the 2 ^ 40 bound, gives
a class weight sum of at most 100. -/
theorem C4_float_witness :
    weightTotals demoServices 10 ≤ 2 ^ 40
    ∧ (((srvEmittedWeights demoServices).filter (fun e => e.1 = 10)).map
        (fun e => e.2)).sum ≤ 100 :=
  ⟨by decide, (C4_srv_weights_float demoServices).2.2.2.2 10 (by decide)⟩

/-! ## Positional numeral lemmas -/

/-- A digit list whose digits are below the base has a value below
base to the length. -/
theorem digitsVal_lt (base : Nat) (hb : 0 < base) :
    ∀ l : List Nat, (∀ x ∈ l, x < base) → digitsVal base l < base ^ l.length := by
  intro l
  induction l with
  | nil => intro _; simpa [digitsVal] using hb
  | cons d rest ih =>
    intro hwf
    have hd : d < base := hwf d (List.mem_cons_self d rest)
    have hr : digitsVal base rest < base ^ rest.length :=
      ih (fun x hx => hwf x (List.mem_cons_of_mem d hx))
    simp only [digitsVal, List.length_cons, pow_succ]
    have h2 : digitsVal base rest + 1 ≤ base ^ rest.length := hr
    have h3 : base * (digitsVal base rest + 1) ≤ base * base ^ rest.length :=
      Nat.mul_le_mul_left base h2
    have h4 : base * (digitsVal base rest + 1) = base * digitsVal base rest + base := by
      ring
    have h5 : base ^ rest.length * base = base * base ^ rest.length := by
      ring
    linarith

/-- Reading back the digits of a value yields the value modulo base to the
digit count. -/
theorem digitsVal_natDigits (base : Nat) (hb : 0 < base) :
    ∀ (k v : Nat), digitsVal base (natDigits base k v) = v % base ^ k := by
  intro k
  induction k with
  | zero => intro v; simp [natDigits, digitsVal, Nat.mod_one]
  | succ k ih =>
    intro v
    simp only [natDigits, digitsVal, ih]
    rw [pow_succ', Nat.mod_mul]

/-- natDigits emits exactly the requested digit count. -/
theorem natDigits_length (base : Nat) : ∀ k v, (natDigits base k v).length = k := by
  intro k
  induction k with
  | zero => intro v; rfl
  | succ k ih => intro v; simp [natDigits, ih]

/-- natDigits emits digits below the base. -/
theorem natDigits_wf (base : Nat) (hb : 0 < base) :
    ∀ k v, ∀ x ∈ natDigits base k v, x < base := by
  intro k
  induction k with
  | zero => intro v x hx; simp [natDigits] at hx
  | succ k ih =>
    intro v x hx
    simp only [natDigits, List.mem_cons] at hx
    rcases hx with rfl | hx
    · exact Nat.mod_lt _ hb
    · exact ih _ x hx

/-- Rebuilding a well-formed digit list from its value restores the list. -/
theorem natDigits_digitsVal (base : Nat) (hb : 0 < base) :
    ∀ l : List Nat, (∀ x ∈ l, x < base) →
      natDigits base l.length (digitsVal base l) = l := by
  intro l
  induction l with
  | nil => intro _; rfl
  | cons d rest ih =>
    intro hwf
    have hd : d < base := hwf d (List.mem_cons_self d rest)
    have hwr : ∀ x ∈ rest, x < base := fun x hx => hwf x (List.mem_cons_of_mem d hx)
    simp only [List.length_cons, natDigits, digitsVal]
    have h1 : (d + base * digitsVal base rest) % base = d := by
      rw [Nat.add_mul_mod_self_left]
      exact Nat.mod_eq_of_lt hd
    have h2 : (d + base * digitsVal base rest) / base = digitsVal base rest := by
      rw [Nat.add_mul_div_left _ _ hb]
      rw [Nat.div_eq_of_lt hd]
      omega
    rw [h1, h2, ih hwr]

/-- Value of the big-endian byte rendering: the value modulo the capacity. -/
theorem valBE_toBytesBE (n v : Nat) : valBE (toBytesBE n v) = v % 256 ^ n := by
  unfold valBE toBytesBE
  rw [List.reverse_reverse]
  exact digitsVal_natDigits 256 (by omega) n v

/-- Length of the big-endian byte rendering. -/
theorem toBytesBE_length (n v : Nat) : (toBytesBE n v).length = n := by
  unfold toBytesBE
  simp [natDigits_length]

/-- Bytes of the big-endian rendering are below 256. -/
theorem toBytesBE_wf (n v : Nat) : ∀ x ∈ toBytesBE n v, x < 256 := by
  intro x hx
  unfold toBytesBE at hx
  rw [List.mem_reverse] at hx
  exact natDigits_wf 256 (by omega) n v x hx

/-- Rendering the value of a well-formed byte list restores the list. -/
theorem toBytesBE_valBE (b : List Nat) (hwf : ∀ x ∈ b, x < 256) :
    toBytesBE b.length (valBE b) = b := by
  unfold toBytesBE valBE
  have h1 : b.length = b.reverse.length := (List.length_reverse b).symm
  rw [h1, natDigits_digitsVal 256 (by omega) b.reverse
    (fun x hx => hwf x (List.mem_reverse.mp hx))]
  exact List.reverse_reverse b

/-- A well-formed byte list has a value below the capacity. -/
theorem valBE_lt (b : List Nat) (hwf : ∀ x ∈ b, x < 256) :
    valBE b < 256 ^ b.length := by
  unfold valBE
  have := digitsVal_lt 256 (by omega) b.reverse
    (fun x hx => hwf x (List.mem_reverse.mp hx))
  simpa using this

/-- Well-formed byte lists of equal length and equal value are equal. -/
theorem byte_list_inj (a b : List Nat) (ha : ∀ x ∈ a, x < 256)
    (hb : ∀ x ∈ b, x < 256) (hlen : a.length = b.length)
    (hval : valBE a = valBE b) : a = b := by
  have h1 := toBytesBE_valBE a ha
  have h2 := toBytesBE_valBE b hb
  rw [← h1, ← h2, hlen, hval]

/-- The all-255 byte list carries the maximal value. -/
theorem valBE_replicate255 (n : Nat) :
    valBE (List.replicate n 255) = 256 ^ n - 1 := by
  unfold valBE
  rw [List.reverse_replicate]
  induction n with
  | zero => rfl
  | succ k ih =>
    simp only [List.replicate_succ, digitsVal, ih, pow_succ]
    have h1 : 1 ≤ (256 : Nat) ^ k := Nat.one_le_pow _ _ (by omega)
    have h2 : (256 : Nat) ^ k * 256 = 256 * 256 ^ k := by ring
    omega

/-! ## Semantics of the byteArith loops -/

/-- Reduction of a symbolic modulus on the interval from m to 2m. -/
theorem mod_of_range (x m : Nat) (h1 : m ≤ x) (h2 : x < 2 * m) : x % m = x - m := by
  rw [Nat.mod_eq_sub_mod h1]
  exact Nat.mod_eq_of_lt (by omega)

/-- The decrement loop preserves the byte count. -/
theorem decBytesRev_length : ∀ l : List Nat, (decBytesRev l).length = l.length := by
  intro l
  induction l with
  | nil => rfl
  | cons b rest ih =>
    by_cases hb : b = 0
    · simp [decBytesRev, hb, ih]
    · simp [decBytesRev, hb]

/-- The decrement loop preserves well-formedness of the bytes. -/
theorem decBytesRev_wf : ∀ l : List Nat, (∀ x ∈ l, x < 256) →
    ∀ x ∈ decBytesRev l, x < 256 := by
  intro l
  induction l with
  | nil => intro _ x hx; simp [decBytesRev] at hx
  | cons b rest ih =>
    intro hwf x hx
    have hb : b < 256 := hwf b (List.mem_cons_self b rest)
    have hwr : ∀ y ∈ rest, y < 256 := fun y hy => hwf y (List.mem_cons_of_mem b hy)
    by_cases hb0 : b = 0
    · simp only [decBytesRev, if_pos hb0, List.mem_cons] at hx
      rcases hx with rfl | hx
      · omega
      · exact ih hwr x hx
    · simp only [decBytesRev, if_neg hb0, List.mem_cons] at hx
      rcases hx with rfl | hx
      · omega
      · exact hwr x hx

/-- The decrement loop subtracts one from the little-endian value, modulo the
capacity (wrapping the all-zero buffer to all-255). -/
theorem decBytesRev_val : ∀ l : List Nat, (∀ x ∈ l, x < 256) →
    digitsVal 256 (decBytesRev l)
      = (digitsVal 256 l + (256 ^ l.length - 1)) % 256 ^ l.length := by
  intro l
  induction l with
  | nil => intro _; simp [decBytesRev, digitsVal]
  | cons b rest ih =>
    intro hwf
    have hb : b < 256 := hwf b (List.mem_cons_self b rest)
    have hwr : ∀ x ∈ rest, x < 256 := fun x hx => hwf x (List.mem_cons_of_mem b hx)
    have hV : digitsVal 256 rest < 256 ^ rest.length :=
      digitsVal_lt 256 (by omega) rest hwr
    have hM : 1 ≤ (256 : Nat) ^ rest.length := Nat.one_le_pow _ _ (by omega)
    have hdv : digitsVal 256 (b :: rest) = b + 256 * digitsVal 256 rest := rfl
    have hpow : (256 : Nat) ^ (b :: rest).length = 256 ^ rest.length * 256 := by
      rw [show (b :: rest).length = rest.length + 1 from rfl, pow_succ]
    by_cases hb0 : b = 0
    · have hdec : decBytesRev (b :: rest) = 255 :: decBytesRev rest := by
        simp [decBytesRev, hb0]
      have hdv2 : digitsVal 256 (255 :: decBytesRev rest)
          = 255 + 256 * digitsVal 256 (decBytesRev rest) := rfl
      rw [hdec, hdv2, ih hwr, hdv, hpow, hb0]
      by_cases hV0 : digitsVal 256 rest = 0
      · rw [hV0]
        have e1 : ((0 : Nat) + (256 ^ rest.length - 1)) % 256 ^ rest.length
            = 0 + (256 ^ rest.length - 1) := Nat.mod_eq_of_lt (by omega)
        have e2 : ((0 : Nat) + 256 * 0 + (256 ^ rest.length * 256 - 1))
              % (256 ^ rest.length * 256)
            = 0 + 256 * 0 + (256 ^ rest.length * 256 - 1) :=
          Nat.mod_eq_of_lt (by omega)
        rw [e1, e2]
        omega
      · have e1 : (digitsVal 256 rest + (256 ^ rest.length - 1)) % 256 ^ rest.length
            = digitsVal 256 rest + (256 ^ rest.length - 1) - 256 ^ rest.length :=
          mod_of_range _ _ (by omega) (by omega)
        have e2 : (0 + 256 * digitsVal 256 rest + (256 ^ rest.length * 256 - 1))
              % (256 ^ rest.length * 256)
            = 0 + 256 * digitsVal 256 rest + (256 ^ rest.length * 256 - 1)
              - 256 ^ rest.length * 256 :=
          mod_of_range _ _ (by omega) (by omega)
        rw [e1, e2]
        omega
    · have hdec : decBytesRev (b :: rest) = (b - 1) :: rest := by
        simp [decBytesRev, hb0]
      have hdv2 : digitsVal 256 ((b - 1) :: rest)
          = (b - 1) + 256 * digitsVal 256 rest := rfl
      rw [hdec, hdv2, hdv, hpow]
      have e2 : (b + 256 * digitsVal 256 rest + (256 ^ rest.length * 256 - 1))
            % (256 ^ rest.length * 256)
          = b + 256 * digitsVal 256 rest + (256 ^ rest.length * 256 - 1)
            - 256 ^ rest.length * 256 :=
        mod_of_range _ _ (by omega) (by omega)
      rw [e2]
      omega

/-- The increment loop preserves the byte count. -/
theorem incBytesRev_length : ∀ l : List Nat, (incBytesRev l).1.length = l.length := by
  intro l
  induction l with
  | nil => rfl
  | cons b rest ih =>
    by_cases hb : b = 255
    · simp [incBytesRev, hb, ih]
    · simp [incBytesRev, hb]

/-- The increment loop on an all-255 buffer zeroes every byte and falls off
the front without returning. -/
theorem incBytesRev_all255 : ∀ l : List Nat, (∀ x ∈ l, x = 255) →
    incBytesRev l = (List.replicate l.length 0, false) := by
  intro l
  induction l with
  | nil => intro _; rfl
  | cons b rest ih =>
    intro hall
    have hb : b = 255 := hall b (List.mem_cons_self b rest)
    have hr : ∀ x ∈ rest, x = 255 := fun x hx => hall x (List.mem_cons_of_mem b hx)
    simp [incBytesRev, hb, ih hr, List.replicate_succ]

/-- On a buffer that is not all-255, the increment loop returns, adds exactly
one to the little-endian value, and preserves well-formedness. -/
theorem incBytesRev_of_ne : ∀ l : List Nat, (∀ x ∈ l, x < 256) →
    (∃ x ∈ l, x ≠ 255) →
    (incBytesRev l).2 = true
    ∧ digitsVal 256 (incBytesRev l).1 = digitsVal 256 l + 1
    ∧ (∀ x ∈ (incBytesRev l).1, x < 256) := by
  intro l
  induction l with
  | nil => intro _ hex; simp at hex
  | cons b rest ih =>
    intro hwf hex
    have hb : b < 256 := hwf b (List.mem_cons_self b rest)
    have hwr : ∀ x ∈ rest, x < 256 := fun x hx => hwf x (List.mem_cons_of_mem b hx)
    by_cases hb5 : b = 255
    · subst hb5
      have hexr : ∃ x ∈ rest, x ≠ 255 := by
        obtain ⟨x, hx, hxne⟩ := hex
        rcases List.mem_cons.mp hx with rfl | hx2
        · exact absurd rfl hxne
        · exact ⟨x, hx2, hxne⟩
      have h := ih hwr hexr
      have hstep : incBytesRev (255 :: rest)
          = (0 :: (incBytesRev rest).1, (incBytesRev rest).2) := by
        simp [incBytesRev]
      refine ⟨?_, ?_, ?_⟩
      · rw [hstep]
        exact h.1
      · rw [hstep]
        have hdv : digitsVal 256 (0 :: (incBytesRev rest).1)
            = 0 + 256 * digitsVal 256 (incBytesRev rest).1 := rfl
        have hdv2 : digitsVal 256 (255 :: rest) = 255 + 256 * digitsVal 256 rest := rfl
        show digitsVal 256 (0 :: (incBytesRev rest).1) = digitsVal 256 (255 :: rest) + 1
        rw [hdv, h.2.1, hdv2]
        omega
      · intro x hx
        rw [hstep] at hx
        simp only [List.mem_cons] at hx
        rcases hx with rfl | hx
        · omega
        · exact h.2.2 x hx
    · have hstep : incBytesRev (b :: rest) = ((b + 1) :: rest, true) := by
        simp [incBytesRev, hb5]
      refine ⟨?_, ?_, ?_⟩
      · rw [hstep]
      · rw [hstep]
        have hdv : digitsVal 256 ((b + 1) :: rest) = (b + 1) + 256 * digitsVal 256 rest := rfl
        have hdv2 : digitsVal 256 (b :: rest) = b + 256 * digitsVal 256 rest := rfl
        show digitsVal 256 ((b + 1) :: rest) = digitsVal 256 (b :: rest) + 1
        rw [hdv, hdv2]
        omega
      · intro x hx
        rw [hstep] at hx
        simp only [List.mem_cons] at hx
        rcases hx with rfl | hx
        · omega
        · exact hwr x hx

/-- The decrement loop turns an all-zero buffer into an all-255 buffer. -/
theorem decBytesRev_replicate_zero : ∀ n : Nat,
    decBytesRev (List.replicate n 0) = List.replicate n 255 := by
  intro n
  induction n with
  | zero => rfl
  | succ k ih => simp [List.replicate_succ, decBytesRev, ih]

/-- byteArith with x false renders the decremented value: it equals the
big-endian bytes of (value + capacity - 1) modulo the capacity. -/
theorem byteArith_false_eq (b : List Nat) (hwf : ∀ x ∈ b, x < 256) :
    byteArith b false
      = toBytesBE b.length ((valBE b + (256 ^ b.length - 1)) % 256 ^ b.length) := by
  have hstep : byteArith b false = (decBytesRev b.reverse).reverse := rfl
  rw [hstep]
  have hwr : ∀ x ∈ b.reverse, x < 256 := fun x hx => hwf x (List.mem_reverse.mp hx)
  have hwd : ∀ x ∈ decBytesRev b.reverse, x < 256 := decBytesRev_wf _ hwr
  apply byte_list_inj
  · intro x hx
    exact hwd x (List.mem_reverse.mp hx)
  · exact toBytesBE_wf _ _
  · rw [List.length_reverse, decBytesRev_length, List.length_reverse,
      toBytesBE_length]
  · rw [valBE_toBytesBE]
    unfold valBE
    rw [List.reverse_reverse, decBytesRev_val _ hwr, List.length_reverse]
    rw [Nat.mod_mod_of_dvd _ (dvd_refl _)]

/-- byteArith with x true on a buffer that is not all-255 renders the
incremented value. -/
theorem byteArith_true_eq (b : List Nat) (hwf : ∀ x ∈ b, x < 256)
    (hne : b ≠ List.replicate b.length 255) :
    byteArith b true = toBytesBE b.length (valBE b + 1) := by
  have hex : ∃ x ∈ b, x ≠ 255 := by
    by_contra hall
    push_neg at hall
    exact hne (List.eq_replicate.mpr ⟨rfl, hall⟩)
  have hexr : ∃ x ∈ b.reverse, x ≠ 255 := by
    obtain ⟨x, hx, hxne⟩ := hex
    exact ⟨x, List.mem_reverse.mpr hx, hxne⟩
  have hwr : ∀ x ∈ b.reverse, x < 256 := fun x hx => hwf x (List.mem_reverse.mp hx)
  have h := incBytesRev_of_ne b.reverse hwr hexr
  rcases hr : incBytesRev b.reverse with ⟨r1, ret⟩
  rw [hr] at h
  have hret : ret = true := h.1
  subst hret
  have hstep : byteArith b true = r1.reverse := by
    unfold byteArith
    rw [hr]
    simp
  rw [hstep]
  apply byte_list_inj
  · intro x hx
    exact h.2.2 x (List.mem_reverse.mp hx)
  · exact toBytesBE_wf _ _
  · rw [List.length_reverse, toBytesBE_length]
    have := incBytesRev_length b.reverse
    rw [hr] at this
    simpa using this
  · rw [valBE_toBytesBE]
    unfold valBE
    rw [List.reverse_reverse]
    have hv1 : digitsVal 256 r1 = digitsVal 256 b.reverse + 1 := h.2.1
    rw [hv1]
    have hvlt : digitsVal 256 b.reverse < 256 ^ b.length := by
      have := digitsVal_lt 256 (by omega) b.reverse hwr
      rwa [List.length_reverse] at this
    have hvne : digitsVal 256 b.reverse ≠ 256 ^ b.length - 1 := by
      intro hcontra
      apply hne
      apply byte_list_inj b (List.replicate b.length 255) hwf
      · intro x hx
        have := List.eq_of_mem_replicate hx
        omega
      · simp
      · rw [valBE_replicate255]
        exact hcontra
    rw [Nat.mod_eq_of_lt (by omega)]

/-- byteArith with x true on an all-255 buffer leaves it all-255: the carried
increment loop zeroes the bytes and falls through into the decrement loop,
which wraps them back to 255. -/
theorem byteArith_true_replicate (n : Nat) :
    byteArith (List.replicate n 255) true = List.replicate n 255 := by
  have hall : ∀ x ∈ (List.replicate n 255 : List Nat).reverse, x = 255 := by
    intro x hx
    exact List.eq_of_mem_replicate (List.mem_reverse.mp hx)
  have hinc := incBytesRev_all255 (List.replicate n 255 : List Nat).reverse hall
  have hlen : ((List.replicate n 255 : List Nat).reverse).length = n := by simp
  unfold byteArith
  rw [hinc, hlen]
  show (decBytesRev (List.replicate n 0)).reverse = List.replicate n 255
  rw [decBytesRev_replicate_zero, List.reverse_replicate]

/-- Claim C10, counterexample: on the one-byte buffer 255, byteArith with
true leaves the buffer at 255 — the increment loop zeroes it and falls
through into the decrement loop — instead of wrapping to 0 = (255 + 1) mod
2^8, and the subsequent decrement yields 254, so add-then-subtract does not
restore the original buffer either. -/
theorem C10_counterexample :
    byteArith [255] true = [255]
    ∧ valBE (byteArith [255] true) ≠ (valBE [255] + 1) % 2 ^ (8 * 1)
    ∧ byteArith (byteArith [255] true) false = [254] := by decide

/-- Claim C10 (amended): for every non-empty well-formed byte buffer b of
length n holding big-endian value v: byteArith(b, false) always represents
(v - 1) mod 2^(8n); when b is not all-255, byteArith(b, true) represents
(v + 1) mod 2^(8n) and applying true then false restores b; when b is
all-255 the increment loop falls through into the decrement loop and leaves
the buffer all-255, so its value is not (v + 1) mod 2^(8n). -/
theorem C10_byteArith (b : List Nat) (hb : b ≠ []) (hwf : ∀ x ∈ b, x < 256) :
    (valBE (byteArith b false)
      = (valBE b + (2 ^ (8 * b.length) - 1)) % 2 ^ (8 * b.length))
    ∧ (b ≠ List.replicate b.length 255 →
        valBE (byteArith b true) = (valBE b + 1) % 2 ^ (8 * b.length)
        ∧ byteArith (byteArith b true) false = b)
    ∧ (b = List.replicate b.length 255 →
        byteArith b true = b
        ∧ valBE (byteArith b true) ≠ (valBE b + 1) % 2 ^ (8 * b.length)) := by
  have hpow : (2 : Nat) ^ (8 * b.length) = 256 ^ b.length := by
    rw [pow_mul]
    norm_num
  have hvlt : valBE b < 256 ^ b.length := valBE_lt b hwf
  have hM : 1 ≤ (256 : Nat) ^ b.length := Nat.one_le_pow _ _ (by omega)
  refine ⟨?_, ?_, ?_⟩
  · rw [hpow, byteArith_false_eq b hwf, valBE_toBytesBE,
      Nat.mod_mod_of_dvd _ (dvd_refl _)]
  · intro hne
    have hvne : valBE b ≠ 256 ^ b.length - 1 := by
      intro hcontra
      apply hne
      apply byte_list_inj b (List.replicate b.length 255) hwf
      · intro x hx
        have := List.eq_of_mem_replicate hx
        omega
      · simp
      · rw [valBE_replicate255, hcontra]
    have htrue := byteArith_true_eq b hwf hne
    constructor
    · rw [hpow, htrue, valBE_toBytesBE]
    · rw [htrue]
      have hwf2 : ∀ x ∈ toBytesBE b.length (valBE b + 1), x < 256 := toBytesBE_wf _ _
      rw [byteArith_false_eq _ hwf2, toBytesBE_length, valBE_toBytesBE]
      have hv2 : (valBE b + 1) % 256 ^ b.length = valBE b + 1 :=
        Nat.mod_eq_of_lt (by omega)
      rw [hv2]
      have hv3 : (valBE b + 1 + (256 ^ b.length - 1)) % 256 ^ b.length = valBE b := by
        have e1 : valBE b + 1 + (256 ^ b.length - 1) = valBE b + 256 ^ b.length := by
          omega
        rw [e1, Nat.add_mod_right]
        exact Nat.mod_eq_of_lt hvlt
      rw [hv3]
      exact toBytesBE_valBE b hwf
  · intro hall
    have hn : 1 ≤ b.length := by
      rcases b with _ | ⟨x, rest⟩
      · exact absurd rfl hb
      · simp
    constructor
    · conv_lhs => rw [hall]
      rw [byteArith_true_replicate]
      exact hall.symm
    · have htrue : byteArith b true = b := by
        conv_lhs => rw [hall]
        rw [byteArith_true_replicate]
        exact hall.symm
      rw [htrue]
      have hv : valBE b = 256 ^ b.length - 1 := by
        rw [hall, valBE_replicate255]
        simp [hall.symm]
      rw [hpow, hv]
      have e1 : 256 ^ b.length - 1 + 1 = 256 ^ b.length := by omega
      rw [e1, Nat.mod_self]
      have hM2 : 256 ≤ (256 : Nat) ^ b.length := by
        calc (256 : Nat) = 256 ^ 1 := (pow_one 256).symm
          _ ≤ 256 ^ b.length := Nat.pow_le_pow_right (by omega) hn
      omega

/-- Claim C10 witness: the theorem applied at the two-byte buffer 0x00 0x01,
whose incremented value is 2. -/
theorem C10_witness :
    (([0, 1] : List Nat) ≠ []
      ∧ ([0, 1] : List Nat) ≠ List.replicate ([0, 1] : List Nat).length 255)
    ∧ valBE (byteArith [0, 1] true)
      = (valBE [0, 1] + 1) % 2 ^ (8 * ([0, 1] : List Nat).length) :=
  ⟨⟨by decide, by decide⟩,
    ((C10_byteArith [0, 1] (by decide) (by decide)).2.1 (by decide)).1⟩

/-! ## Claim C9 — NSEC3 white-lie cover for NXDOMAIN -/

/-- The base32hex digit character codes decode back to the digit. -/
theorem base32Val_base32Char (d : Nat) (hd : d < 32) :
    base32Val (base32Char d) = d := by
  unfold base32Char base32Val
  split_ifs <;> omega

/-- Encoding digits to characters and decoding them restores the digits. -/
theorem map_base32_roundtrip (l : List Nat) (hl : ∀ d ∈ l, d < 32) :
    (l.map base32Char).map base32Val = l := by
  rw [List.map_map]
  have h : ∀ d ∈ l, (base32Val ∘ base32Char) d = id d := by
    intro d hd
    simp [Function.comp, base32Val_base32Char d (hl d hd)]
  rw [List.map_congr_left h, List.map_id]

/-- Decoding the base32hex rendering of a 20-byte digest restores the
digest. -/
theorem packBase32_unpackBase32 (b : List Nat) (hlen : b.length = 20)
    (hwf : ∀ x ∈ b, x < 256) :
    packBase32 (unpackBase32 b) = b := by
  have hv : valBE b < 32 ^ 32 := by
    have h1 := valBE_lt b hwf
    rw [hlen] at h1
    calc valBE b < 256 ^ 20 := h1
      _ = 32 ^ 32 := by norm_num
  have hc1 : 8 * 20 / 5 = 32 := by norm_num
  have hc2 : 5 * 32 / 8 = 20 := by norm_num
  have hD : ∀ d ∈ (natDigits 32 32 (valBE b)).reverse, d < 32 := fun d hd =>
    natDigits_wf 32 (by omega) _ _ d (List.mem_reverse.mp hd)
  unfold packBase32 unpackBase32
  rw [hlen, hc1, map_base32_roundtrip _ hD, List.reverse_reverse,
    digitsVal_natDigits 32 (by omega), List.length_map, List.length_reverse,
    natDigits_length, hc2, Nat.mod_eq_of_lt hv]
  have h2 := toBytesBE_valBE b hwf
  rw [hlen] at h2
  exact h2

/-- Claim C9: abstracting the SHA-1 NSEC3 hash H(qname) as an arbitrary
20-byte digest, the NSEC3 synthesised for NXDOMAIN has an owner whose first
label is the (lower-cased) base32hex encoding of the digest value minus one,
followed by the configured domain, and a NextDomain equal to the base32hex
encoding of the digest value plus one.  The digest value is assumed distinct
from 0 and 2^160 - 1, where the byteArith wrap-around would distort the
result; the spec design notes record that these cannot occur for 20-byte
SHA-1 outputs in practice. -/
theorem C9_nsec3_cover (hash domain : List Nat) (minTtl : Nat)
    (hlen : hash.length = 20) (hwf : ∀ x ∈ hash, x < 256)
    (hlo : 1 ≤ valBE hash) (hhi : valBE hash < 2 ^ 160 - 1) :
    (NewNSEC3NameError domain minTtl (unpackBase32 hash)).ownerName
      = (unpackBase32 (toBytesBE 20 (valBE hash - 1))).map toLowerChar
        ++ [46] ++ domain
    ∧ (NewNSEC3NameError domain minTtl (unpackBase32 hash)).nextDomain
      = unpackBase32 (toBytesBE 20 (valBE hash + 1)) := by
  have hpow : (2 : Nat) ^ 160 = 256 ^ 20 := by norm_num
  rw [hpow] at hhi
  have hM : (1 : Nat) ≤ 256 ^ 20 := Nat.one_le_pow _ _ (by omega)
  have hv : valBE hash < 256 ^ 20 := by
    have h1 := valBE_lt hash hwf
    rwa [hlen] at h1
  have harg : (valBE hash + (256 ^ 20 - 1)) % 256 ^ 20 = valBE hash - 1 := by
    have h2 : valBE hash + (256 ^ 20 - 1) = (valBE hash - 1) + 256 ^ 20 := by omega
    rw [h2, Nat.add_mod_right]
    exact Nat.mod_eq_of_lt (by omega)
  have hb1 : byteArith hash false = toBytesBE 20 (valBE hash - 1) := by
    have h1 := byteArith_false_eq hash hwf
    rw [hlen, harg] at h1
    exact h1
  have hwf1 : ∀ x ∈ toBytesBE 20 (valBE hash - 1), x < 256 := toBytesBE_wf _ _
  have hlen1 : (toBytesBE 20 (valBE hash - 1)).length = 20 := toBytesBE_length _ _
  have hval1 : valBE (toBytesBE 20 (valBE hash - 1)) = valBE hash - 1 := by
    rw [valBE_toBytesBE]
    exact Nat.mod_eq_of_lt (by omega)
  have hne1 : toBytesBE 20 (valBE hash - 1)
      ≠ List.replicate (toBytesBE 20 (valBE hash - 1)).length 255 := by
    intro hc
    have h3 := congrArg valBE hc
    rw [hval1, hlen1, valBE_replicate255] at h3
    omega
  have hb2 : byteArith (toBytesBE 20 (valBE hash - 1)) true
      = toBytesBE 20 (valBE hash) := by
    rw [byteArith_true_eq _ hwf1 hne1, hlen1, hval1]
    have h2 : valBE hash - 1 + 1 = valBE hash := by omega
    rw [h2]
  have hwf2 : ∀ x ∈ toBytesBE 20 (valBE hash), x < 256 := toBytesBE_wf _ _
  have hlen2 : (toBytesBE 20 (valBE hash)).length = 20 := toBytesBE_length _ _
  have hval2 : valBE (toBytesBE 20 (valBE hash)) = valBE hash := by
    rw [valBE_toBytesBE]
    exact Nat.mod_eq_of_lt (by omega)
  have hne2 : toBytesBE 20 (valBE hash)
      ≠ List.replicate (toBytesBE 20 (valBE hash)).length 255 := by
    intro hc
    have h3 := congrArg valBE hc
    rw [hval2, hlen2, valBE_replicate255] at h3
    omega
  have hb3 : byteArith (toBytesBE 20 (valBE hash)) true
      = toBytesBE 20 (valBE hash + 1) := by
    rw [byteArith_true_eq _ hwf2 hne2, hlen2, hval2]
  have hpk := packBase32_unpackBase32 hash hlen hwf
  constructor
  · simp only [NewNSEC3NameError]
    rw [hpk, hb1]
  · simp only [NewNSEC3NameError]
    rw [hpk, hb1, hb2, hb3]

/-- Claim C9 witness: the theorem applied at the digest of value 5, whose
cover has NextDomain encoding value 6. -/
theorem C9_witness :
    ((toBytesBE 20 5).length = 20 ∧ 1 ≤ valBE (toBytesBE 20 5)
      ∧ valBE (toBytesBE 20 5) < 2 ^ 160 - 1)
    ∧ (NewNSEC3NameError [100] 60 (unpackBase32 (toBytesBE 20 5))).nextDomain
      = unpackBase32 (toBytesBE 20 (valBE (toBytesBE 20 5) + 1)) :=
  ⟨⟨by decide, by decide, by decide⟩,
    (C9_nsec3_cover (toBytesBE 20 5) [100] 60 (by decide) (by decide)
      (by decide) (by decide)).2⟩

end SkyDNS
